import Mathlib

/-!
# khamu_clients: the CryptoJS-compatible cipher codec and the Magma bootstrap

A shallow embedding of `src/khamu/crypto.go`, of the bootstrap part of
`src/khamu/magma.go` and of the page scan of `src/khamu/install_data.go`.

Go strings and byte slices are lists of bytes.  A Go call ends in one of three
ways, which `Outcome` keeps apart: it returns a value, it returns a non-nil
`error`, or it panics.  The packages the code imports (`crypto/md5`,
`crypto/aes`, `encoding/hex`, `encoding/base64`, the text level of
`encoding/json`, `golib/crypto/pkcs7`) are not part of the repository; the
functions called from them are the fields of `Lib`, and what a proof needs to
know about them is stated as an explicit law (`Lib.Lawful`).
-/

namespace Khamu

/-! ## Bytes, strings, outcomes -/

abbrev Byte := Fin 256

abbrev Bytes := List Byte

/-- The bytes of a Go string literal (its UTF-8 encoding). -/
def ofString (s : String) : Bytes :=
  (s.toList.flatMap String.utf8EncodeChar).map UInt8.val

/-- A Go `error` value: one returned by a library call (named by the call), one
made by `fmt.Errorf` without `%w`, or one made by `fmt.Errorf` with `%w`
around a cause. -/
inductive GoError where
  | lib (call : String)
  | errorf (msg : String)
  | wrapped (msg : String) (cause : GoError)
  deriving DecidableEq, Repr

/-- How a Go call ends: with a value and a nil error, with a non-nil error, or
with a panic. -/
inductive Outcome (α : Type) where
  | ret (v : α)
  | err (e : GoError)
  | panic (msg : String)
  deriving DecidableEq, Repr

/-- A Go `map[string]string`, as the list of its assignments, newest first. -/
abbrev StringMap := List (Bytes × Bytes)

/-- The statement `m[k] = v`. -/
def StringMap.set (m : StringMap) (k v : Bytes) : StringMap := (k, v) :: m

/-- The two-result lookup `v, ok := m[k]`. -/
def StringMap.get? (m : StringMap) (k : Bytes) : Option Bytes := m.lookup k

/-- The one-result lookup `m[k]`: the empty string for a key that is not there. -/
def StringMap.get (m : StringMap) (k : Bytes) : Bytes := (m.lookup k).getD []

/-! ## JSON values and the imported packages -/

/-- A JSON document as `encoding/json` reads it.  A number is kept as its
literal. -/
inductive Json where
  | null
  | bool (b : Bool)
  | num (lit : Bytes)
  | str (s : Bytes)
  | arr (items : List Json)
  | obj (fields : List (Bytes × Json))

/-- The functions the package calls in the Go standard library and in
`golib/crypto/pkcs7`.  A function with a Go `error` result returns `none` for a
non-nil error.  `md5.Sum` returns a `[16]byte` and a cipher block is 16 bytes:
these sizes belong to the Go types and are fields here. -/
structure Lib where
  /-- The digest `md5.Sum(data)`. -/
  md5Sum : Bytes → Bytes
  md5Sum_size : ∀ data, (md5Sum data).length = 16
  /-- The block written by `Block.Encrypt` of `aes.NewCipher(key)`. -/
  aesEncrypt : Bytes → Bytes → Bytes
  aesEncrypt_size : ∀ key block, (aesEncrypt key block).length = 16
  /-- The block written by `Block.Decrypt` of `aes.NewCipher(key)`. -/
  aesDecrypt : Bytes → Bytes → Bytes
  aesDecrypt_size : ∀ key block, (aesDecrypt key block).length = 16
  /-- The call `pkcs7.Unpad(data)`. -/
  pkcs7Unpad : Bytes → Option Bytes
  /-- The call `base64.StdEncoding.EncodeToString(data)`. -/
  base64Encode : Bytes → Bytes
  /-- The call `base64.StdEncoding.DecodeString(s)`. -/
  base64Decode : Bytes → Option Bytes
  /-- The call `hex.EncodeToString(data)`. -/
  hexEncode : Bytes → Bytes
  /-- The call `hex.DecodeString(s)`. -/
  hexDecode : Bytes → Option Bytes
  /-- The text `encoding/json` writes for a value. -/
  jsonRender : Json → Bytes
  /-- The value `encoding/json` reads from a text, `none` for a syntax error. -/
  jsonParse : Bytes → Option Json
  /-- Whether `encoding/json` takes an object key for the struct field of the
  given name (an exact or a case-folded match). -/
  jsonFieldMatch : Bytes → Bytes → Bool

/-! ## UTF-8 coercion of `json.Marshal`

`json.Marshal` writes a Go string "coerced to valid UTF-8, replacing invalid
bytes with the Unicode replacement rune".  `runeLen` follows
`utf8.DecodeRuneInString`. -/

/-- A UTF-8 continuation byte. -/
def isCont (b : Byte) : Bool := 0x80 ≤ b.val && b.val ≤ 0xBF

/-- The length of the well-formed UTF-8 sequence at the head of `s`, or `0`
when the first byte does not start one (`utf8.RuneError` of width 1). -/
def runeLen : Bytes → Nat
  | [] => 0
  | b0 :: rest =>
    if b0.val < 0x80 then 1
    else if 0xC2 ≤ b0.val ∧ b0.val ≤ 0xDF then
      match rest with
      | b1 :: _ => if isCont b1 then 2 else 0
      | _ => 0
    else if 0xE0 ≤ b0.val ∧ b0.val ≤ 0xEF then
      match rest with
      | b1 :: b2 :: _ =>
        let lo := if b0.val = 0xE0 then 0xA0 else 0x80
        let hi := if b0.val = 0xED then 0x9F else 0xBF
        if lo ≤ b1.val ∧ b1.val ≤ hi ∧ isCont b2 then 3 else 0
      | _ => 0
    else if 0xF0 ≤ b0.val ∧ b0.val ≤ 0xF4 then
      match rest with
      | b1 :: b2 :: b3 :: _ =>
        let lo := if b0.val = 0xF0 then 0x90 else 0x80
        let hi := if b0.val = 0xF4 then 0x8F else 0xBF
        if lo ≤ b1.val ∧ b1.val ≤ hi ∧ isCont b2 ∧ isCont b3 then 4 else 0
      | _ => 0
    else 0

/-- The UTF-8 encoding of U+FFFD, the replacement rune. -/
def replacementRune : Bytes := [0xEF, 0xBF, 0xBD]

/-- The coercion loop: a well-formed sequence is kept, any other byte becomes
U+FFFD and the scan resumes at the next byte.  Every step consumes a byte, so
`fuel = len(s)` is enough. -/
def toValidUTF8Aux : Nat → Bytes → Bytes
  | 0, _ => []
  | _ + 1, [] => []
  | fuel + 1, b :: rest =>
    match runeLen (b :: rest) with
    | 0 => replacementRune ++ toValidUTF8Aux fuel rest
    | n + 1 => b :: rest.take n ++ toValidUTF8Aux fuel (rest.drop n)

/-- The string `json.Marshal` encodes in place of `s`. -/
def toValidUTF8 (s : Bytes) : Bytes := toValidUTF8Aux s.length s

/-- The text `json.Marshal(plain)` for a Go string. -/
def jsonMarshalString (L : Lib) (plain : Bytes) : Bytes :=
  L.jsonRender (.str (toValidUTF8 plain))

/-- What `json.Unmarshal` stores in a `string`: a JSON string is stored, `null`
leaves the target as it is, any other value is an `UnmarshalTypeError`. -/
def decodeString (zero : Bytes) : Json → Option Bytes
  | .str s => some s
  | .null => some zero
  | _ => none

/-- The call `json.Unmarshal(data, &outString)` on an empty `outString`. -/
def jsonUnmarshalString (L : Lib) (data : Bytes) : Option Bytes :=
  match L.jsonParse data with
  | none => none
  | some v => decodeString [] v

/-- The members of a JSON object stored one by one into a `map[string]string`;
a member that is neither a string nor `null` makes the call fail. -/
def decodeStringFields : List (Bytes × Json) → StringMap → Option StringMap
  | [], m => some m
  | (k, v) :: rest, m =>
    match decodeString [] v with
    | none => none
    | some s => decodeStringFields rest (m.set k s)

/-- The call `json.Unmarshal(data, &jd)` on an empty `map[string]string`. -/
def jsonUnmarshalStringMap (L : Lib) (data : Bytes) : Option StringMap :=
  match L.jsonParse data with
  | some (.obj fields) => decodeStringFields fields []
  | some .null => some []
  | _ => none

/-! ## crypto.go -/

/-- The loop `for len(salted) < 48` of `encrypt` (crypto.go, lines 29-37), from
the state `(dx, salted)`; the result is the final `salted` and the number of
`md5.Sum` calls made.  The loop ends because each round appends 16 bytes. -/
def encryptDerive (L : Lib) (pass salt : Bytes) (dx salted : Bytes) (rounds : Nat) :
    Bytes × Nat :=
  if h : salted.length < 48 then
    let input := dx ++ pass ++ salt
    let dx' := L.md5Sum input
    encryptDerive L pass salt dx' (salted ++ dx') (rounds + 1)
  else (salted, rounds)
termination_by 48 - salted.length
decreasing_by
  simp only [List.length_append, L.md5Sum_size]
  omega

/-- The loop `for len(salted) < 48` of `decrypt` (crypto.go, lines 82-90), the
same statements as in `encrypt`. -/
def decryptDerive (L : Lib) (pass salt : Bytes) (dx salted : Bytes) (rounds : Nat) :
    Bytes × Nat :=
  if h : salted.length < 48 then
    let input := dx ++ pass ++ salt
    let dx' := L.md5Sum input
    decryptDerive L pass salt dx' (salted ++ dx') (rounds + 1)
  else (salted, rounds)
termination_by 48 - salted.length
decreasing_by
  simp only [List.length_append, L.md5Sum_size]
  omega

/-- The call `aes.NewCipher(key)`: a `KeySizeError` unless the key has 16, 24 or
32 bytes. -/
def aesNewCipher (key : Bytes) : Option Unit :=
  if key.length = 16 ∨ key.length = 24 ∨ key.length = 32 then some () else none

/-- Bytewise exclusive or of two blocks (`subtle.XORBytes`). -/
def xorBytes (a b : Bytes) : Bytes := List.zipWith (fun x y => x ^^^ y) a b

/-- CBC encryption of `n` blocks of `src` with chaining value `iv`. -/
def cbcEncryptBlocks (enc : Bytes → Bytes) : Nat → Bytes → Bytes → Bytes
  | 0, _, _ => []
  | n + 1, iv, src =>
    let c := enc (xorBytes (src.take 16) iv)
    c ++ cbcEncryptBlocks enc n c (src.drop 16)

/-- CBC decryption of `n` blocks of `src` with chaining value `iv`. -/
def cbcDecryptBlocks (dec : Bytes → Bytes) : Nat → Bytes → Bytes → Bytes
  | 0, _, _ => []
  | n + 1, iv, src =>
    let c := src.take 16
    xorBytes (dec c) iv ++ cbcDecryptBlocks dec n c (src.drop 16)

/-- The calls `cipher.NewCBCEncrypter(aesc, iv)` or `cipher.NewCBCDecrypter(aesc,
iv)` followed by `CryptBlocks(out, src)` with `len(out) = len(src)`: the
constructor panics on an IV that is not one block long and `CryptBlocks` panics
on an input that is not a whole number of blocks. -/
def cryptBlocks (blocks : Nat → Bytes → Bytes → Bytes) (iv src : Bytes) : Outcome Bytes :=
  if iv.length ≠ 16 then .panic "cipher: IV length must equal block size"
  else if src.length % 16 ≠ 0 then .panic "crypto/cipher: input not full blocks"
  else .ret (blocks (src.length / 16) iv src)

/-- Modelled from the spec: `pkcs7.Pad(data, blockSize)` of the imported package
`golib/crypto/pkcs7`, whose source is not in the repository.  The spec names
the scheme (PKCS#7): the data is extended to a multiple of the block size by
`n` bytes of value `n`, `1 ≤ n ≤ blockSize`. -/
def pkcs7Pad (data : Bytes) (blockSize : Nat) : Bytes :=
  let n := blockSize - data.length % blockSize
  data ++ List.replicate n (Fin.ofNat n)

/-- The envelope `encrypt` marshals: `json.Marshal` writes the keys of a map in
sorted order and coerces each string to valid UTF-8. -/
def envelope (L : Lib) (ct iv s : Bytes) : Bytes :=
  L.jsonRender (.obj [(ofString "ct", .str (toValidUTF8 ct)),
                      (ofString "iv", .str (toValidUTF8 iv)),
                      (ofString "s", .str (toValidUTF8 s))])

/-- The body of `encrypt` after the salt has been drawn (crypto.go, lines
29-61).  `json.Marshal` of a string or of a `map[string]string` returns no
error, so the two `err != nil` branches on its result are never taken. -/
def encryptWithSalt (L : Lib) (plain pass salt : Bytes) : Outcome Bytes :=
  let jd := jsonMarshalString L plain
  let salted := (encryptDerive L pass salt [] [] 0).1
  let key := salted.take 32
  let iv := (salted.drop 32).take 16
  match aesNewCipher key with
  | none => .err (.lib "aes.NewCipher")
  | some _ =>
    let plaintext := pkcs7Pad jd 16
    match cryptBlocks (cbcEncryptBlocks (L.aesEncrypt key)) iv plaintext with
    | .panic msg => .panic msg
    | .err e => .err e
    | .ret out =>
      .ret (envelope L (L.base64Encode out) (L.hexEncode iv) (L.hexEncode salt))

/-- The function `encrypt(plain, pass)`; `rnd` is what `rand.Read` put into the
8-byte `salt`, or `none` when it returned an error. -/
def encrypt (L : Lib) (plain pass : Bytes) (rnd : Option Bytes) : Outcome Bytes :=
  match rnd with
  | none => .err (.lib "rand.Read")
  | some salt => encryptWithSalt L plain pass salt

/-- The function `decrypt(j, pass)`. -/
def decrypt (L : Lib) (j pass : Bytes) : Outcome Bytes :=
  match jsonUnmarshalStringMap L j with
  | none => .err (.lib "json.Unmarshal")
  | some jd =>
    match L.hexDecode (jd.get (ofString "s")) with
    | none => .err (.lib "hex.DecodeString")
    | some salt =>
      match L.base64Decode (jd.get (ofString "ct")) with
      | none => .err (.lib "base64.DecodeString")
      | some ciphertext =>
        let salted := (decryptDerive L pass salt [] [] 0).1
        let key := salted.take 32
        let iv := (salted.drop 32).take 16
        match aesNewCipher key with
        | none => .err (.lib "aes.NewCipher")
        | some _ =>
          match cryptBlocks (cbcDecryptBlocks (L.aesDecrypt key)) iv ciphertext with
          | .panic msg => .panic msg
          | .err e => .err e
          | .ret out =>
            match L.pkcs7Unpad out with
            | none => .err (.lib "pkcs7.Unpad")
            | some up =>
              match jsonUnmarshalString L up with
              | none => .err (.lib "json.Unmarshal")
              | some outString => .ret outString


/-- The statements of `decrypt` up to the call of `CryptBlocks` (crypto.go,
lines 65-102): how they end, and the buffer `out` that the rest of the function
unpads and decodes. -/
def decryptBuffer (L : Lib) (j pass : Bytes) : Outcome Bytes :=
  match jsonUnmarshalStringMap L j with
  | none => .err (.lib "json.Unmarshal")
  | some jd =>
    match L.hexDecode (jd.get (ofString "s")) with
    | none => .err (.lib "hex.DecodeString")
    | some salt =>
      match L.base64Decode (jd.get (ofString "ct")) with
      | none => .err (.lib "base64.DecodeString")
      | some ciphertext =>
        let salted := (decryptDerive L pass salt [] [] 0).1
        let key := salted.take 32
        let iv := (salted.drop 32).take 16
        match aesNewCipher key with
        | none => .err (.lib "aes.NewCipher")
        | some _ => cryptBlocks (cbcDecryptBlocks (L.aesDecrypt key)) iv ciphertext

/-- The three digests of the derivation: `block0 = MD5(pass ‖ salt)` and
`block[n] = MD5(block[n-1] ‖ pass ‖ salt)`. -/
def md5Block (L : Lib) (pass salt : Bytes) : Nat → Bytes
  | 0 => L.md5Sum (pass ++ salt)
  | n + 1 => L.md5Sum (md5Block L pass salt n ++ pass ++ salt)

/-- The 48-byte stream `block0 ‖ block1 ‖ block2`. -/
def md5Stream (L : Lib) (pass salt : Bytes) : Bytes :=
  md5Block L pass salt 0 ++ md5Block L pass salt 1 ++ md5Block L pass salt 2

/-- What the proofs assume of the imported packages: AES decryption and
encryption with a 256-bit key are inverse permutations of the 16-byte blocks,
`pkcs7.Unpad` removes what `pkcs7.Pad` added, the hex and base64 decoders
invert their encoders, whose output is valid UTF-8, and `encoding/json` reads
back the text it writes for a valid string and for the envelope. -/
structure Lib.Lawful (L : Lib) : Prop where
  aes_decrypt_encrypt : ∀ key block, key.length = 32 → block.length = 16 →
    L.aesDecrypt key (L.aesEncrypt key block) = block
  aes_encrypt_decrypt : ∀ key block, key.length = 32 → block.length = 16 →
    L.aesEncrypt key (L.aesDecrypt key block) = block
  unpad_pad : ∀ data, L.pkcs7Unpad (pkcs7Pad data 16) = some data
  base64_decode_encode : ∀ data, L.base64Decode (L.base64Encode data) = some data
  base64_valid : ∀ data, toValidUTF8 (L.base64Encode data) = L.base64Encode data
  hex_decode_encode : ∀ data, L.hexDecode (L.hexEncode data) = some data
  hex_valid : ∀ data, toValidUTF8 (L.hexEncode data) = L.hexEncode data
  json_string : ∀ s, toValidUTF8 s = s → L.jsonParse (L.jsonRender (.str s)) = some (.str s)
  json_envelope : ∀ ct iv s, toValidUTF8 ct = ct → toValidUTF8 iv = iv → toValidUTF8 s = s →
    L.jsonParse (L.jsonRender (.obj [(ofString "ct", .str ct), (ofString "iv", .str iv),
      (ofString "s", .str s)])) =
    some (.obj [(ofString "ct", .str ct), (ofString "iv", .str iv), (ofString "s", .str s)])

/-! ## A reference instance of the library interface

An instance of `Lib` that meets every law assumed below.  The text encodings
are the real ones: lower-case hexadecimal, standard base64 with padding,
PKCS#7 unpadding with a full check of the padding bytes, and a JSON reader and
writer for strings, integers, `true`, `false`, `null` and objects of these.
The digest (a byte sum) and the block cipher (exclusive or with the key) are
stand-ins of the right sizes. -/

namespace Ref

/-- The digit of a value below 16. -/
def hexDigit (n : Nat) : Byte := if n < 10 then Fin.ofNat (48 + n) else Fin.ofNat (87 + n)

/-- The value of a hexadecimal digit, in either case. -/
def hexVal (c : Byte) : Option Nat :=
  if 48 ≤ c.val ∧ c.val ≤ 57 then some (c.val - 48)
  else if 97 ≤ c.val ∧ c.val ≤ 102 then some (c.val - 87)
  else if 65 ≤ c.val ∧ c.val ≤ 70 then some (c.val - 55)
  else none

def hexEncode : Bytes → Bytes
  | [] => []
  | b :: rest => hexDigit (b.val / 16) :: hexDigit (b.val % 16) :: hexEncode rest

def hexDecode : Bytes → Option Bytes
  | [] => some []
  | [_] => none
  | h :: l :: rest =>
    match hexVal h, hexVal l, hexDecode rest with
    | some x, some y, some r => some (Fin.ofNat (x * 16 + y) :: r)
    | _, _, _ => none

/-- The character of a 6-bit value in the standard base64 alphabet. -/
def b64Char (n : Nat) : Byte :=
  if n < 26 then Fin.ofNat (65 + n)
  else if n < 52 then Fin.ofNat (71 + n)
  else if n < 62 then Fin.ofNat (n - 4)
  else if n = 62 then 0x2B
  else 0x2F

/-- The 6-bit value of a character of the standard base64 alphabet. -/
def b64Val (c : Byte) : Option Nat :=
  if 65 ≤ c.val ∧ c.val ≤ 90 then some (c.val - 65)
  else if 97 ≤ c.val ∧ c.val ≤ 122 then some (c.val - 71)
  else if 48 ≤ c.val ∧ c.val ≤ 57 then some (c.val + 4)
  else if c.val = 43 then some 62
  else if c.val = 47 then some 63
  else none

/-- Standard base64 with padding. -/
def base64Encode : Bytes → Bytes
  | [] => []
  | [a] => [b64Char (a.val / 4), b64Char (a.val % 4 * 16), 0x3D, 0x3D]
  | [a, b] =>
    [b64Char (a.val / 4), b64Char (a.val % 4 * 16 + b.val / 16), b64Char (b.val % 16 * 4), 0x3D]
  | a :: b :: c :: rest =>
    b64Char (a.val / 4) :: b64Char (a.val % 4 * 16 + b.val / 16) ::
      b64Char (b.val % 16 * 4 + c.val / 64) :: b64Char (c.val % 64) :: base64Encode rest

/-- The decoder of standard base64: groups of four characters, the last one
padded with `=`; the unused low bits of a padded group are not checked. -/
def base64Decode : Bytes → Option Bytes
  | [] => some []
  | c0 :: c1 :: c2 :: c3 :: rest =>
    match b64Val c0, b64Val c1 with
    | some v0, some v1 =>
      if c2 = 0x3D ∧ c3 = 0x3D ∧ rest = [] then some [Fin.ofNat (v0 * 4 + v1 / 16)]
      else
        match b64Val c2 with
        | some v2 =>
          if c3 = 0x3D ∧ rest = [] then
            some [Fin.ofNat (v0 * 4 + v1 / 16), Fin.ofNat (v1 % 16 * 16 + v2 / 4)]
          else
            match b64Val c3, base64Decode rest with
            | some v3, some r =>
              some (Fin.ofNat (v0 * 4 + v1 / 16) :: Fin.ofNat (v1 % 16 * 16 + v2 / 4) ::
                Fin.ofNat (v2 % 4 * 64 + v3) :: r)
            | _, _ => none
        | none => none
    | _, _ => none
  | _ => none

def pkcs7Unpad (data : Bytes) : Option Bytes :=
  match data.getLast? with
  | none => none
  | some n =>
    if n.val = 0 ∨ data.length < n.val then none
    else if (data.drop (data.length - n.val)).all (fun b => b == n) then
      some (data.take (data.length - n.val))
    else none

/-- Exactly 16 bytes of `x`, zero-filled. -/
def fit (x : Bytes) : Bytes := (x ++ List.replicate 16 0).take 16

def md5Sum (data : Bytes) : Bytes := List.replicate 16 data.sum

def aesCrypt (key block : Bytes) : Bytes := xorBytes (fit block) (fit key)

/-- JSON white space. -/
def isWs (c : Byte) : Bool := c = 0x20 || c = 0x09 || c = 0x0A || c = 0x0D

def skipWs (t : Bytes) : Bytes := t.dropWhile isWs

def isDigit (c : Byte) : Bool := 48 ≤ c.val && c.val ≤ 57

/-- A byte of a string as it is written between the quotes: the quote and the
backslash with a backslash before them, a control character and the characters
`<`, `>` and `&` as a `\u00` escape, any other byte as it is. -/
def escapeByte (b : Byte) : Bytes :=
  if b = 0x22 then [0x5C, 0x22]
  else if b = 0x5C then [0x5C, 0x5C]
  else if b.val < 0x20 ∨ b = 0x3C ∨ b = 0x3E ∨ b = 0x26 then
    [0x5C, 0x75, 0x30, 0x30, hexDigit (b.val / 16), hexDigit (b.val % 16)]
  else [b]

def renderStr (s : Bytes) : Bytes := 0x22 :: (s.flatMap escapeByte ++ [0x22])

/-- The byte a two-character escape stands for. -/
def simpleEscape (e : Byte) : Option Byte :=
  if e = 0x22 then some 0x22
  else if e = 0x5C then some 0x5C
  else if e = 0x2F then some 0x2F
  else if e = 0x62 then some 0x08
  else if e = 0x66 then some 0x0C
  else if e = 0x6E then some 0x0A
  else if e = 0x72 then some 0x0D
  else if e = 0x74 then some 0x09
  else none

/-- The bytes of a string up to its closing quote, and the text after it; of
the `\u` escapes only those of an ASCII character are read. -/
def readStr : Bytes → Option (Bytes × Bytes)
  | [] => none
  | c :: rest =>
    if c = 0x22 then some ([], rest)
    else if c = 0x5C then
      match rest with
      | [] => none
      | e :: rest1 =>
        if e = 0x75 then
          match rest1 with
          | z1 :: z2 :: h :: l :: rest2 =>
            match hexVal h, hexVal l, readStr rest2 with
            | some x, some y, some (s, r) =>
              if z1 = 0x30 ∧ z2 = 0x30 ∧ x < 8 then some (Fin.ofNat (x * 16 + y) :: s, r)
              else none
            | _, _, _ => none
          | _ => none
        else
          match simpleEscape e, readStr rest1 with
          | some b, some (s, r) => some (b :: s, r)
          | _, _ => none
    else if c.val < 0x20 then none
    else
      match readStr rest with
      | some (s, r) => some (c :: s, r)
      | none => none

def renderVal : Json → Bytes
  | .str s => renderStr s
  | .null => ofString "null"
  | .bool true => ofString "true"
  | .bool false => ofString "false"
  | .num lit => lit
  | .arr _ => ofString "[]"
  | .obj _ => ofString "\x7b\x7d"

def renderMember (kv : Bytes × Json) : Bytes := renderStr kv.1 ++ 0x3A :: renderVal kv.2

/-- The members of an object, separated by commas, and its closing brace. -/
def renderMembers : List (Bytes × Json) → Bytes
  | [] => [0x7D]
  | [kv] => renderMember kv ++ [0x7D]
  | kv :: rest => renderMember kv ++ 0x2C :: renderMembers rest

def jsonRender : Json → Bytes
  | .obj fields => 0x7B :: renderMembers fields
  | v => renderVal v

/-- A string, an integer, `null`, `true` or `false`, and the text after it. -/
def parseVal : Bytes → Option (Json × Bytes)
  | [] => none
  | c :: rest =>
    if c = 0x22 then
      match readStr rest with
      | some (s, r) => some (.str (toValidUTF8 s), r)
      | none => none
    else if isDigit c then some (.num (c :: rest.takeWhile isDigit), rest.dropWhile isDigit)
    else if c = 0x2D then
      match rest with
      | [] => none
      | d :: rest1 =>
        if isDigit d then
          some (.num (c :: d :: rest1.takeWhile isDigit), rest1.dropWhile isDigit)
        else none
    else if (ofString "null").isPrefixOf (c :: rest) then some (.null, rest.drop 3)
    else if (ofString "true").isPrefixOf (c :: rest) then some (.bool true, rest.drop 3)
    else if (ofString "false").isPrefixOf (c :: rest) then some (.bool false, rest.drop 4)
    else none

/-- The members of an object after its opening brace or after a comma, up to
the closing brace, which ends the document. -/
def parseMembers : Nat → Bytes → Option (List (Bytes × Json))
  | 0, _ => none
  | fuel + 1, t =>
    match skipWs t with
    | [] => none
    | c :: rest =>
      if c = 0x22 then
        match readStr rest with
        | none => none
        | some (k, r1) =>
          match skipWs r1 with
          | [] => none
          | colon :: r2 =>
            if colon = 0x3A then
              match parseVal (skipWs r2) with
              | none => none
              | some (v, r3) =>
                match skipWs r3 with
                | [] => none
                | d :: r4 =>
                  if d = 0x2C then
                    (parseMembers fuel r4).map (fun fs => (toValidUTF8 k, v) :: fs)
                  else if d = 0x7D then
                    (if skipWs r4 = [] then some [(toValidUTF8 k, v)] else none)
                  else none
            else none
      else none

def jsonParse (t : Bytes) : Option Json :=
  match skipWs t with
  | [] => none
  | c :: rest =>
    if c = 0x7B then
      match skipWs rest with
      | [] => none
      | d :: r =>
        if d = 0x7D then (if skipWs r = [] then some (.obj []) else none)
        else (parseMembers rest.length rest).map Json.obj
    else
      match parseVal (c :: rest) with
      | some (v, r) => if skipWs r = [] then some v else none
      | none => none

end Ref

/-- The reference instance. -/
def refLib : Lib where
  md5Sum := Ref.md5Sum
  md5Sum_size := fun data => by simp [Ref.md5Sum]
  aesEncrypt := Ref.aesCrypt
  aesEncrypt_size := fun key block => by
    simp [Ref.aesCrypt, Ref.fit, xorBytes]
  aesDecrypt := Ref.aesCrypt
  aesDecrypt_size := fun key block => by
    simp [Ref.aesCrypt, Ref.fit, xorBytes]
  pkcs7Unpad := Ref.pkcs7Unpad
  base64Encode := Ref.base64Encode
  base64Decode := Ref.base64Decode
  hexEncode := Ref.hexEncode
  hexDecode := Ref.hexDecode
  jsonRender := Ref.jsonRender
  jsonParse := Ref.jsonParse
  jsonFieldMatch := fun key name => key == name

/-- The statements of `decrypt` after the envelope has been read (crypto.go,
lines 70-114), as a function of the two members it looks up. -/
def decryptFields (L : Lib) (pass s ct : Bytes) : Outcome Bytes :=
  match L.hexDecode s with
  | none => .err (.lib "hex.DecodeString")
  | some salt =>
    match L.base64Decode ct with
    | none => .err (.lib "base64.DecodeString")
    | some ciphertext =>
      let salted := (decryptDerive L pass salt [] [] 0).1
      let key := salted.take 32
      let iv := (salted.drop 32).take 16
      match aesNewCipher key with
      | none => .err (.lib "aes.NewCipher")
      | some _ =>
        match cryptBlocks (cbcDecryptBlocks (L.aesDecrypt key)) iv ciphertext with
        | .panic msg => .panic msg
        | .err e => .err e
        | .ret out =>
          match L.pkcs7Unpad out with
          | none => .err (.lib "pkcs7.Unpad")
          | some up =>
            match jsonUnmarshalString L up with
            | none => .err (.lib "json.Unmarshal")
            | some outString => .ret outString

/-- A member other than `iv`. -/
def notIv {α : Type} (kv : Bytes × α) : Bool := kv.1 != ofString "iv"

/-! ## The functions of package `strings` the code calls -/

/-- The call `strings.HasPrefix(s, prefix)`. -/
def hasPrefix (s pre : Bytes) : Bool := pre.isPrefixOf s

/-- The call `strings.HasSuffix(s, suffix)`. -/
def hasSuffix (s suf : Bytes) : Bool := suf.isSuffixOf s

/-- The call `strings.TrimPrefix(s, prefix)`. -/
def trimPrefix (s pre : Bytes) : Bytes := if hasPrefix s pre then s.drop pre.length else s

/-- The call `strings.TrimSuffix(s, suffix)`. -/
def trimSuffix (s suf : Bytes) : Bytes :=
  if hasSuffix s suf then s.take (s.length - suf.length) else s

/-- The UTF-8 encodings of the runes for which `unicode.IsSpace` holds: tab,
line feed, vertical tab, form feed, carriage return, space, U+0085, U+00A0,
U+1680, U+2000 to U+200A, U+2028, U+2029, U+202F, U+205F and U+3000. -/
def spaceRunes : List Bytes :=
  [[0x09], [0x0A], [0x0B], [0x0C], [0x0D], [0x20], [0xC2, 0x85], [0xC2, 0xA0],
   [0xE1, 0x9A, 0x80], [0xE2, 0x80, 0x80], [0xE2, 0x80, 0x81], [0xE2, 0x80, 0x82],
   [0xE2, 0x80, 0x83], [0xE2, 0x80, 0x84], [0xE2, 0x80, 0x85], [0xE2, 0x80, 0x86],
   [0xE2, 0x80, 0x87], [0xE2, 0x80, 0x88], [0xE2, 0x80, 0x89], [0xE2, 0x80, 0x8A],
   [0xE2, 0x80, 0xA8], [0xE2, 0x80, 0xA9], [0xE2, 0x80, 0xAF], [0xE2, 0x81, 0x9F],
   [0xE3, 0x80, 0x80]]

/-- Removes from the head of `s` every leading sequence that is one of `runes`;
each round removes at least one byte, so `fuel = len(s)` is enough. -/
def dropRunes (runes : List Bytes) : Nat → Bytes → Bytes
  | 0, s => s
  | fuel + 1, s =>
    match runes.find? (fun r => r.isPrefixOf s) with
    | some r => dropRunes runes fuel (s.drop r.length)
    | none => s

/-- The call `strings.TrimSpace(s)`: the white-space runes at both ends are
removed. -/
def trimSpace (s : Bytes) : Bytes :=
  let t := dropRunes spaceRunes s.length s
  (dropRunes (spaceRunes.map List.reverse) t.length t.reverse).reverse

/-- The call `strings.Trim(s, cutset)` for a cutset of one ASCII character. -/
def trimByte (s : Bytes) (c : Byte) : Bytes :=
  ((s.dropWhile (fun b => b == c)).reverse.dropWhile (fun b => b == c)).reverse

/-- The call `strings.Split(s, sep)` for a separator of one byte. -/
def split (s : Bytes) (sep : Byte) : List Bytes := s.splitOn sep

/-- The call `strings.SplitN(s, sep, 2)` for a separator of one byte: the text
before the first separator and the text after it, or `s` alone when it holds
no separator. -/
def splitN2 (s : Bytes) (sep : Byte) : List Bytes :=
  match s.dropWhile (fun b => b != sep) with
  | [] => [s]
  | _ :: after => [s.takeWhile (fun b => b != sep), after]

/-! ## magma.go -/

def keyTemplate : Bytes := ofString "https://magma.k2magma.com~::~"

def csrfLinePrefix : Bytes := ofString "<script>"

def csrfLineSuffix : Bytes := ofString "</script>"

def cryptoKeyVarName : Bytes := ofString "window._mtoken"

def csrfBlobVarName : Bytes := ofString "window.ksu"

/-- The fields of `MagmaClient` that `initializeState` writes. -/
structure MagmaClient where
  csrfToken : Bytes
  cryptoToken : Bytes
  deriving DecidableEq, Repr

/-- The method `cryptoKey`: `fmt.Sprintf(keyTemplate, c.cryptoToken)`, the
template with the token in the place of its `%s`. -/
def MagmaClient.cryptoKey (c : MagmaClient) : Bytes := keyTemplate ++ c.cryptoToken

/-- The members of a JSON object stored into `struct { Token string }` with the
tag `json:"_token"`: a member whose key matches the field is stored (`null`
leaves the field as it is, a value that is not a string is an
`UnmarshalTypeError`), any other member is skipped. -/
def decodeTokenFields (L : Lib) : List (Bytes × Json) → Bytes → Option Bytes
  | [], token => some token
  | (k, v) :: rest, token =>
    if L.jsonFieldMatch k (ofString "_token") then
      match decodeString token v with
      | none => none
      | some s => decodeTokenFields L rest s
    else decodeTokenFields L rest token

/-- The call `json.Unmarshal(decoded, &t)`; the result is `t.Token`. -/
def jsonUnmarshalToken (L : Lib) (data : Bytes) : Option Bytes :=
  match L.jsonParse data with
  | some (.obj fields) => decodeTokenFields L fields []
  | some .null => some []
  | _ => none

/-- The method `extractCsrfToken`. -/
def MagmaClient.extractCsrfToken (L : Lib) (c : MagmaClient) (jsonString : Bytes) :
    Outcome Bytes :=
  match decrypt L jsonString c.cryptoKey with
  | .panic msg => .panic msg
  | .err e => .err e
  | .ret b64json =>
    match L.base64Decode b64json with
    | none => .err (.lib "base64.DecodeString")
    | some decoded =>
      match jsonUnmarshalToken L decoded with
      | none => .err (.lib "json.Unmarshal")
      | some token => .ret token

/-- One round of the loop of `extractTokens`: a part with an `=` sets an entry,
any other part is skipped. -/
def extractStep (out : StringMap) (p : Bytes) : StringMap :=
  match splitN2 p 0x3D with
  | [k, v] => out.set (trimSpace k) (trimByte (trimSpace v) 0x60)
  | _ => out

/-- The method `extractTokens`; its error result is always nil. -/
def extractTokens (line : Bytes) : Outcome StringMap :=
  .ret ((split line 0x3B).foldl extractStep [])

/-- What `bufio.NewScanner(res.Body)` yields: the lines `scanner.Text()` returns
one after the other, and the value of `scanner.Err()` once `scanner.Scan()` has
returned false. -/
structure Document where
  lines : List Bytes
  scanErr : Option GoError

/-- The loop `for scanner.Scan()` of `initializeState` (magma.go, lines 62-75):
the tokens found, and whether the loop ran to the end of the document (`true`)
or left through `break` (`false`). -/
def scanTokens : List Bytes → Outcome (StringMap × Bool)
  | [] => .ret ([], true)
  | text :: rest =>
    let line := trimSpace text
    if hasPrefix line csrfLinePrefix then
      let line := trimPrefix line csrfLinePrefix
      let line := trimSuffix line csrfLineSuffix
      if !hasPrefix line cryptoKeyVarName then scanTokens rest
      else
        match extractTokens line with
        | .panic msg => .panic msg
        | .err e =>
          .err (.wrapped "MagmaClient.initializeState: error extracting tokens" e)
        | .ret tokens => .ret (tokens, false)
    else scanTokens rest

/-- The method `initializeState`; `res` is the result of
`c.client.Get(magmaUserLogin)` with the body as the scanner reads it.  The
result is the client as the method leaves it and how the method ends. -/
def MagmaClient.initializeState (L : Lib) (c : MagmaClient) (res : Outcome Document) :
    MagmaClient × Outcome Unit :=
  match res with
  | .panic msg => (c, .panic msg)
  | .err e => (c, .err e)
  | .ret doc =>
    match scanTokens doc.lines with
    | .panic msg => (c, .panic msg)
    | .err e => (c, .err e)
    | .ret (tokens, atEnd) =>
      match (if atEnd then doc.scanErr else none) with
      | some e =>
        (c, .err (.wrapped "MagmaClient.initializeState: error scanning document" e))
      | none =>
        match tokens.get? cryptoKeyVarName with
        | none =>
          (c, .err (.errorf "MagmaClient.initializeState: crypto token not found in document"))
        | some ct =>
          let c := { c with cryptoToken := ct }
          match tokens.get? csrfBlobVarName with
          | none =>
            (c, .err (.errorf
              "MagmaClient.initializeState: encrypted csrf blob not found in document"))
          | some csrfBlob =>
            match c.extractCsrfToken L csrfBlob with
            | .panic msg => (c, .panic msg)
            | .err e =>
              (c, .err (.wrapped "MagmaClient.initializeState: failed to decrypt csrf token" e))
            | .ret ct => ({ c with csrfToken := ct }, .ret ())

/-! ## install_data.go -/

def installPrefix : Bytes := ofString "window.$install = "

def installSuffix : Bytes := ofString ";"

/-- A value held in a `map[string]interface{}`: one stored by `json.Unmarshal`
(nil, bool, float64, string, slice or map, by the JSON value it came from) or a
Go `int`. -/
inductive GoValue where
  | decoded (v : Json)
  | int (n : Int)

/-- The type `KhamuInstallData`, as the list of its assignments, newest first. -/
abbrev KhamuInstallData := List (Bytes × GoValue)

/-- The call `json.Unmarshal([]byte(res), &jd)` on the empty map `jd`. -/
def jsonUnmarshalInstallData (L : Lib) (data : Bytes) : Option KhamuInstallData :=
  match L.jsonParse data with
  | some (.obj fields) =>
    some (fields.foldl (fun m kv => (kv.1, GoValue.decoded kv.2) :: m) [])
  | some .null => some []
  | _ => none

/-- The function `KhamuInstallDataFromPage`.  `lines` are the results of the
calls `rd.ReadString('\n')` that end in a newline, in order, and `final` is the
error of the call that follows them: `none` for `io.EOF`, whatever text came
with it being dropped, or a read error. -/
def KhamuInstallDataFromPage (L : Lib) : List Bytes → Option GoError → Outcome KhamuInstallData
  | [], some e => .err (.wrapped "Error reading document" e)
  | [], none => .err (.errorf "Content not found in document, EOF")
  | l :: rest, final =>
    let l := trimSpace l
    if hasPrefix l installPrefix then
      let res := trimPrefix l installPrefix
      let res := trimSuffix l installSuffix
      match jsonUnmarshalInstallData L res with
      | none => .err (.wrapped "Error decoding json" (.lib "json.Unmarshal"))
      | some jd => .ret jd
    else KhamuInstallDataFromPage L rest final

def orderMessage : Bytes :=
  ofString "Online Ordering is currently unavailable. Please come back later."

/-- The type `KhamuOrderState` with its three constants, in the order of the
`iota` block. -/
inductive KhamuOrderState where
  | KhamuOrdersActive
  | KhamuOrdersInactive
  | KhamuOrdersInconsistent
  deriving DecidableEq, Repr

/-- A variable of the map type `KhamuInstallData`: the nil map, which is the
zero value of the type and what `GetInstallData` returns beside an error, or a
map that has been made (by a composite literal or by `json.Unmarshal`), with
its assignments. -/
inductive InstallMap where
  | nil
  | made (entries : KhamuInstallData)

/-- The index expression `vr, ok := d[k]`: reading the nil map finds no key. -/
def InstallMap.index (d : InstallMap) (k : Bytes) : Option GoValue :=
  match d with
  | .nil => none
  | .made entries => entries.lookup k

/-- The assignment `d[k] = v`.  A map is a reference, so the caller sees the new
entry; assigning to an entry of the nil map is a run-time panic. -/
def InstallMap.assign (d : InstallMap) (k : Bytes) (v : GoValue) : Outcome InstallMap :=
  match d with
  | .nil => .panic "assignment to entry in nil map"
  | .made entries => .ret (.made ((k, v) :: entries))

/-- The method `getJsonInt`: the type assertion `vr.(int)` holds for a Go `int`
only, not for what `json.Unmarshal` stores. -/
def KhamuInstallData.getJsonInt (d : InstallMap) (k : Bytes) : Int × Bool :=
  match d.index k with
  | some vr =>
    match vr with
    | .int v => (v, true)
    | .decoded _ => (0, false)
  | none => (0, false)

/-- The method `GetOrderState`. -/
def KhamuInstallData.GetOrderState (d : InstallMap) : KhamuOrderState :=
  let (active, ok) := KhamuInstallData.getJsonInt d (ofString "active")
  if !ok then .KhamuOrdersInconsistent
  else
    let (pickUp, ok) := KhamuInstallData.getJsonInt d (ofString "pick_up")
    if !ok then .KhamuOrdersInconsistent
    else
      let (delivery, ok) := KhamuInstallData.getJsonInt d (ofString "delivery")
      if !ok then .KhamuOrdersInconsistent
      else
        let (dineIn, ok) := KhamuInstallData.getJsonInt d (ofString "dineln")
        if !ok then .KhamuOrdersInconsistent
        else if active = 0 ∧ pickUp = 0 ∧ delivery = 0 ∧ dineIn = 0 then .KhamuOrdersInactive
        else if active = 1 ∧ pickUp = 1 ∧ delivery = 1 ∧ dineIn = 1 then .KhamuOrdersActive
        else .KhamuOrdersInconsistent

/-- The method `updateJsonState`: five assignments in the order of the source,
the first of which panics on the nil map.  The message is stored as a Go
`string`, the same dynamic type as a decoded JSON string. -/
def KhamuInstallData.updateJsonState (d : InstallMap) (v : Int) : Outcome InstallMap :=
  match d.assign (ofString "active") (.int v) with
  | .panic msg => .panic msg
  | .err e => .err e
  | .ret d1 =>
    match d1.assign (ofString "pick_up") (.int v) with
    | .panic msg => .panic msg
    | .err e => .err e
    | .ret d2 =>
      match d2.assign (ofString "delivery") (.int v) with
      | .panic msg => .panic msg
      | .err e => .err e
      | .ret d3 =>
        match d3.assign (ofString "dineln") (.int v) with
        | .panic msg => .panic msg
        | .err e => .err e
        | .ret d4 => d4.assign (ofString "offline_message") (.decoded (.str orderMessage))

/-- The method `DisableOrdering`. -/
def KhamuInstallData.DisableOrdering (d : InstallMap) : Outcome InstallMap :=
  KhamuInstallData.updateJsonState d 0

/-- The method `EnableOrdering`. -/
def KhamuInstallData.EnableOrdering (d : InstallMap) : Outcome InstallMap :=
  KhamuInstallData.updateJsonState d 1

/-- The four keys `GetOrderState` reads, in the order it reads them. -/
def orderKeys : List Bytes :=
  [ofString "active", ofString "pick_up", ofString "delivery", ofString "dineln"]

/-! ## Vocabulary of the claims about `extractTokens` -/

/-- The line made of the assignments `name=value;` in order; the blanks around a
name or a value belong to it. -/
def assignmentsLine (asg : List (Bytes × Bytes)) : Bytes :=
  asg.flatMap (fun a => a.1 ++ 0x3D :: a.2 ++ [0x3B])

/-- The first assignment of the line the spec gives. -/
def mtokenAssignment : Bytes × Bytes := (ofString "window._mtoken ", ofString " `abc123`")

/-- The second assignment of the line the spec gives. -/
def ksuAssignment : Bytes × Bytes :=
  (ofString "window.ksu ", ofString " \x7b\"ct\":\"AAAA\",\"iv\":\"BBBB\",\"s\":\"CCCC\"\x7d")

/-- The envelope `encrypt` returns for a plaintext, a password and a salt, with
the derived stream written as `md5Stream`. -/
def sealedEnvelope (L : Lib) (plain pass salt : Bytes) : Bytes :=
  envelope L
    (L.base64Encode (cbcEncryptBlocks (L.aesEncrypt ((md5Stream L pass salt).take 32))
      ((pkcs7Pad (jsonMarshalString L plain) 16).length / 16)
      (((md5Stream L pass salt).drop 32).take 16) (pkcs7Pad (jsonMarshalString L plain) 16)))
    (L.hexEncode (((md5Stream L pass salt).drop 32).take 16)) (L.hexEncode salt)

/-! ## Vocabulary of the claim about tampering -/

/-- The byte sequence `c` with bit `k` of its byte `i` flipped. -/
def flipBit : Bytes → Nat → Nat → Bytes
  | [], _, _ => []
  | b :: rest, 0, k => (b ^^^ Fin.ofNat (2 ^ k)) :: rest
  | b :: rest, i + 1, k => b :: flipBit rest i k

/-- The ciphertext `encrypt` computes for a plaintext, a password and a salt
(crypto.go, lines 47-50), with the derived stream written as `md5Stream`. -/
def sealedCiphertext (L : Lib) (plain pass salt : Bytes) : Bytes :=
  cbcEncryptBlocks (L.aesEncrypt ((md5Stream L pass salt).take 32))
    ((pkcs7Pad (jsonMarshalString L plain) 16).length / 16)
    (((md5Stream L pass salt).drop 32).take 16) (pkcs7Pad (jsonMarshalString L plain) 16)

/-- The envelope of `encrypt` with bit `k` of byte `i` of its decoded ciphertext
flipped; the members `iv` and `s` are those of the envelope. -/
def tamperedEnvelope (L : Lib) (plain pass salt : Bytes) (i k : Nat) : Bytes :=
  envelope L (L.base64Encode (flipBit (sealedCiphertext L plain pass salt) i k))
    (L.hexEncode (((md5Stream L pass salt).drop 32).take 16)) (L.hexEncode salt)

/-! # Theorems -/

/-! ## Key derivation -/

theorem md5Block_length (L : Lib) (pass salt : Bytes) (n : Nat) :
    (md5Block L pass salt n).length = 16 := by
  cases n <;> simp [md5Block, L.md5Sum_size]

theorem md5Stream_length (L : Lib) (pass salt : Bytes) :
    (md5Stream L pass salt).length = 48 := by
  simp [md5Stream, md5Block_length]

theorem encryptDerive_eq (L : Lib) (pass salt : Bytes) :
    encryptDerive L pass salt [] [] 0 = (md5Stream L pass salt, 3) := by
  rw [encryptDerive]
  simp only [List.length_nil, Nat.zero_lt_succ, ↓reduceDIte, List.nil_append]
  rw [encryptDerive]
  simp only [L.md5Sum_size, Nat.reduceLT, ↓reduceDIte]
  rw [encryptDerive]
  simp only [List.length_append, L.md5Sum_size, Nat.reduceAdd, Nat.reduceLT, ↓reduceDIte]
  rw [encryptDerive]
  simp [L.md5Sum_size, md5Stream, md5Block]

theorem decryptDerive_eq (L : Lib) (pass salt : Bytes) :
    decryptDerive L pass salt [] [] 0 = (md5Stream L pass salt, 3) := by
  rw [decryptDerive]
  simp only [List.length_nil, Nat.zero_lt_succ, ↓reduceDIte, List.nil_append]
  rw [decryptDerive]
  simp only [L.md5Sum_size, Nat.reduceLT, ↓reduceDIte]
  rw [decryptDerive]
  simp only [List.length_append, L.md5Sum_size, Nat.reduceAdd, Nat.reduceLT, ↓reduceDIte]
  rw [decryptDerive]
  simp [L.md5Sum_size, md5Stream, md5Block]

theorem md5Stream_key (L : Lib) (pass salt : Bytes) :
    (md5Stream L pass salt).take 32 = md5Block L pass salt 0 ++ md5Block L pass salt 1 := by
  have h : (md5Block L pass salt 0 ++ md5Block L pass salt 1).length = 32 := by
    simp [md5Block_length]
  rw [md5Stream, List.take_append_of_le_length (by omega), List.take_of_length_le (by omega)]

theorem md5Stream_iv (L : Lib) (pass salt : Bytes) :
    ((md5Stream L pass salt).drop 32).take 16 = md5Block L pass salt 2 := by
  have h : (md5Block L pass salt 0 ++ md5Block L pass salt 1).length = 32 := by
    simp [md5Block_length]
  have h2 := md5Block_length L pass salt 2
  rw [md5Stream, List.drop_append_of_le_length (by omega), List.drop_of_length_le (by omega),
    List.nil_append, List.take_of_length_le (by omega)]


/-! ## CBC mode and padding -/

theorem byte_xor_val (a b : Byte) : (a ^^^ b).val = a.val ^^^ b.val := by
  have h : a.val ^^^ b.val < 2 ^ 8 := Nat.xor_lt_two_pow a.isLt b.isLt
  show (a.val ^^^ b.val) % 256 = _
  exact Nat.mod_eq_of_lt h

theorem byte_xor_cancel (a b : Byte) : (a ^^^ b) ^^^ b = a := by
  apply Fin.ext
  rw [byte_xor_val, byte_xor_val, Nat.xor_cancel_right]

theorem xorBytes_length (a b : Bytes) : (xorBytes a b).length = min a.length b.length := by
  simp [xorBytes]

theorem xorBytes_cancel : ∀ (a b : Bytes), a.length = b.length → xorBytes (xorBytes a b) b = a
  | [], [], _ => rfl
  | x :: a, y :: b, h => by
    have h' : a.length = b.length := by simpa using h
    have ih := xorBytes_cancel a b h'
    simp only [xorBytes, List.zipWith_cons_cons, byte_xor_cancel, List.cons.injEq, true_and] at ih ⊢
    exact ih
  | [], _ :: _, h => by simp at h
  | _ :: _, [], h => by simp at h

theorem cbcEncryptBlocks_length (enc : Bytes → Bytes) (henc : ∀ b, (enc b).length = 16) :
    ∀ (n : Nat) (iv src : Bytes), (cbcEncryptBlocks enc n iv src).length = 16 * n
  | 0, _, _ => rfl
  | n + 1, iv, src => by
    simp only [cbcEncryptBlocks, List.length_append, henc,
      cbcEncryptBlocks_length enc henc n]
    omega

theorem cbcDecrypt_cbcEncrypt (enc dec : Bytes → Bytes) (henc : ∀ b, (enc b).length = 16)
    (hinv : ∀ b, b.length = 16 → dec (enc b) = b) :
    ∀ (n : Nat) (iv src : Bytes), iv.length = 16 → 16 * n ≤ src.length →
      cbcDecryptBlocks dec n iv (cbcEncryptBlocks enc n iv src) = src.take (16 * n)
  | 0, _, _, _, _ => by simp [cbcDecryptBlocks]
  | n + 1, iv, src, hiv, hsrc => by
    have htake : (src.take 16).length = 16 := by
      rw [List.length_take]; omega
    have hx : (xorBytes (src.take 16) iv).length = 16 := by
      rw [xorBytes_length, htake, hiv]; rfl
    have hc := henc (xorBytes (src.take 16) iv)
    have ih := cbcDecrypt_cbcEncrypt enc dec henc hinv n (enc (xorBytes (src.take 16) iv))
      (src.drop 16) hc (by rw [List.length_drop]; omega)
    simp only [cbcEncryptBlocks, cbcDecryptBlocks]
    rw [List.take_append_of_le_length (by omega), List.take_of_length_le (by omega),
      List.drop_append_of_le_length (by omega), List.drop_of_length_le (by omega),
      List.nil_append, ih, hinv _ hx, xorBytes_cancel _ _ (by rw [htake, hiv])]
    have h16 : 16 * (n + 1) = 16 + 16 * n := by omega
    rw [h16, List.take_add]

theorem pkcs7Pad_length (data : Bytes) : (pkcs7Pad data 16).length % 16 = 0 := by
  simp only [pkcs7Pad, List.length_append, List.length_replicate]
  omega

/-! ## Round trip -/

theorem aesNewCipher_key (L : Lib) (pass salt : Bytes) :
    aesNewCipher ((md5Stream L pass salt).take 32) = some () := by
  have h : ((md5Stream L pass salt).take 32).length = 32 := by
    rw [List.length_take, md5Stream_length]; rfl
  simp [aesNewCipher, h]

theorem iv_length (L : Lib) (pass salt : Bytes) :
    (((md5Stream L pass salt).drop 32).take 16).length = 16 := by
  rw [List.length_take, List.length_drop, md5Stream_length]; rfl

theorem key_length (L : Lib) (pass salt : Bytes) :
    ((md5Stream L pass salt).take 32).length = 32 := by
  rw [List.length_take, md5Stream_length]; rfl

/-- The ciphertext `encrypt` computes for the marshalled plaintext `jd`. -/
theorem encryptWithSalt_eq (L : Lib) (plain pass salt : Bytes) :
    encryptWithSalt L plain pass salt =
      .ret (envelope L
        (L.base64Encode (cbcEncryptBlocks (L.aesEncrypt ((md5Stream L pass salt).take 32))
          ((pkcs7Pad (jsonMarshalString L plain) 16).length / 16)
          (((md5Stream L pass salt).drop 32).take 16) (pkcs7Pad (jsonMarshalString L plain) 16)))
        (L.hexEncode (((md5Stream L pass salt).drop 32).take 16)) (L.hexEncode salt)) := by
  simp only [encryptWithSalt, encryptDerive_eq, aesNewCipher_key, cryptBlocks, iv_length,
    pkcs7Pad_length, ne_eq, not_true_eq_false, ↓reduceIte]

theorem decrypt_envelope (L : Lib) (hL : L.Lawful) (pass salt ciphertext iv : Bytes) :
    decrypt L (envelope L (L.base64Encode ciphertext) (L.hexEncode iv) (L.hexEncode salt)) pass =
      match cryptBlocks (cbcDecryptBlocks (L.aesDecrypt ((md5Stream L pass salt).take 32)))
          (((md5Stream L pass salt).drop 32).take 16) ciphertext with
      | .panic msg => .panic msg
      | .err e => .err e
      | .ret out =>
        match L.pkcs7Unpad out with
        | none => .err (.lib "pkcs7.Unpad")
        | some up =>
          match jsonUnmarshalString L up with
          | none => .err (.lib "json.Unmarshal")
          | some outString => .ret outString := by
  have hs : StringMap.get [(ofString "s", L.hexEncode salt), (ofString "iv", L.hexEncode iv),
      (ofString "ct", L.base64Encode ciphertext)] (ofString "s") = L.hexEncode salt := by
    simp [StringMap.get, List.lookup]
  have hct : StringMap.get [(ofString "s", L.hexEncode salt), (ofString "iv", L.hexEncode iv),
      (ofString "ct", L.base64Encode ciphertext)] (ofString "ct") = L.base64Encode ciphertext := by
    have h1 : (ofString "ct" == ofString "s") = false := by decide
    have h2 : (ofString "ct" == ofString "iv") = false := by decide
    simp [StringMap.get, List.lookup, h1, h2]
  simp only [decrypt, envelope, jsonUnmarshalStringMap, hL.base64_valid, hL.hex_valid,
    hL.json_envelope _ _ _ (hL.base64_valid _) (hL.hex_valid _) (hL.hex_valid _),
    decodeStringFields, decodeString, StringMap.set, hs, hct, hL.hex_decode_encode,
    hL.base64_decode_encode, decryptDerive_eq, aesNewCipher_key]

theorem decrypt_eq_buffer (L : Lib) (j pass : Bytes) :
    decrypt L j pass =
      match decryptBuffer L j pass with
      | .panic msg => .panic msg
      | .err e => .err e
      | .ret out =>
        match L.pkcs7Unpad out with
        | none => .err (.lib "pkcs7.Unpad")
        | some up =>
          match jsonUnmarshalString L up with
          | none => .err (.lib "json.Unmarshal")
          | some outString => .ret outString := by
  unfold decrypt decryptBuffer
  cases jsonUnmarshalStringMap L j with
  | none => rfl
  | some jd =>
    simp only
    cases L.hexDecode (jd.get (ofString "s")) with
    | none => rfl
    | some salt =>
      simp only
      cases L.base64Decode (jd.get (ofString "ct")) with
      | none => rfl
      | some ciphertext =>
        simp only
        cases aesNewCipher (((decryptDerive L pass salt [] [] 0).1).take 32) with
        | none => rfl
        | some u => rfl

theorem decryptBuffer_members (L : Lib) (j pass : Bytes) (jd : StringMap)
    (salt ciphertext : Bytes) (hj : jsonUnmarshalStringMap L j = some jd)
    (hs : L.hexDecode (jd.get (ofString "s")) = some salt)
    (hc : L.base64Decode (jd.get (ofString "ct")) = some ciphertext) :
    decryptBuffer L j pass =
      cryptBlocks (cbcDecryptBlocks (L.aesDecrypt
          (md5Block L pass salt 0 ++ md5Block L pass salt 1)))
        (md5Block L pass salt 2) ciphertext := by
  simp only [decryptBuffer, hj, hs, hc, decryptDerive_eq, aesNewCipher_key]
  rw [md5Stream_key, md5Stream_iv]

theorem decrypt_members (L : Lib) (j pass : Bytes) (jd : StringMap)
    (salt ciphertext : Bytes) (hj : jsonUnmarshalStringMap L j = some jd)
    (hs : L.hexDecode (jd.get (ofString "s")) = some salt)
    (hc : L.base64Decode (jd.get (ofString "ct")) = some ciphertext) :
    decrypt L j pass =
      match cryptBlocks (cbcDecryptBlocks (L.aesDecrypt
          (md5Block L pass salt 0 ++ md5Block L pass salt 1)))
          (md5Block L pass salt 2) ciphertext with
      | .panic msg => .panic msg
      | .err e => .err e
      | .ret out =>
        match L.pkcs7Unpad out with
        | none => .err (.lib "pkcs7.Unpad")
        | some up =>
          match jsonUnmarshalString L up with
          | none => .err (.lib "json.Unmarshal")
          | some outString => .ret outString := by
  rw [decrypt_eq_buffer, decryptBuffer_members L j pass jd salt ciphertext hj hs hc]

theorem envelope_members (L : Lib) (hL : L.Lawful) (ct iv s : Bytes) :
    jsonUnmarshalStringMap L (envelope L (L.base64Encode ct) (L.hexEncode iv) (L.hexEncode s)) =
      some [(ofString "s", L.hexEncode s), (ofString "iv", L.hexEncode iv),
        (ofString "ct", L.base64Encode ct)] := by
  simp only [envelope, jsonUnmarshalStringMap, hL.base64_valid, hL.hex_valid,
    hL.json_envelope _ _ _ (hL.base64_valid _) (hL.hex_valid _) (hL.hex_valid _),
    decodeStringFields, decodeString, StringMap.set]

theorem decryptBuffer_envelope (L : Lib) (hL : L.Lawful) (pass salt ciphertext iv : Bytes) :
    decryptBuffer L (envelope L (L.base64Encode ciphertext) (L.hexEncode iv) (L.hexEncode salt))
        pass =
      cryptBlocks (cbcDecryptBlocks (L.aesDecrypt ((md5Stream L pass salt).take 32)))
        (((md5Stream L pass salt).drop 32).take 16) ciphertext := by
  rw [decryptBuffer_members L _ pass _ salt ciphertext (envelope_members L hL ciphertext iv salt)
    (by
      have h : StringMap.get [(ofString "s", L.hexEncode salt), (ofString "iv", L.hexEncode iv),
          (ofString "ct", L.base64Encode ciphertext)] (ofString "s") = L.hexEncode salt := by
        simp [StringMap.get, List.lookup]
      rw [h, hL.hex_decode_encode])
    (by
      have h1 : (ofString "ct" == ofString "s") = false := by decide
      have h2 : (ofString "ct" == ofString "iv") = false := by decide
      have h : StringMap.get [(ofString "s", L.hexEncode salt), (ofString "iv", L.hexEncode iv),
          (ofString "ct", L.base64Encode ciphertext)] (ofString "ct") =
          L.base64Encode ciphertext := by
        simp [StringMap.get, List.lookup, h1, h2]
      rw [h, hL.base64_decode_encode]),
    md5Stream_key, md5Stream_iv]

theorem cryptBlocks_decrypt_encrypt (L : Lib) (hL : L.Lawful) (key iv x : Bytes)
    (hk : key.length = 32) (hiv : iv.length = 16) (hx : x.length % 16 = 0) :
    cryptBlocks (cbcDecryptBlocks (L.aesDecrypt key)) iv
      (cbcEncryptBlocks (L.aesEncrypt key) (x.length / 16) iv x) = .ret x := by
  have hlen := cbcEncryptBlocks_length (L.aesEncrypt key) (L.aesEncrypt_size _)
    (x.length / 16) iv x
  have hmul : 16 * (x.length / 16) = x.length := by omega
  have hrt := cbcDecrypt_cbcEncrypt (L.aesEncrypt key) (L.aesDecrypt key) (L.aesEncrypt_size _)
    (fun b hb => hL.aes_decrypt_encrypt _ b hk hb) (x.length / 16) iv x hiv (by omega)
  rw [hmul, List.take_length] at hrt
  simp only [cryptBlocks, hiv, ne_eq, not_true_eq_false, ↓reduceIte, hlen, hmul, hx, hrt]

theorem decrypt_encryptWithSalt (L : Lib) (hL : L.Lawful) (plain pass salt : Bytes)
    (hv : toValidUTF8 (toValidUTF8 plain) = toValidUTF8 plain) :
    ∃ e, encryptWithSalt L plain pass salt = .ret e ∧
      decrypt L e pass = .ret (toValidUTF8 plain) := by
  refine ⟨_, encryptWithSalt_eq L plain pass salt, ?_⟩
  rw [decrypt_envelope L hL, cryptBlocks_decrypt_encrypt L hL _ _ _ (key_length L pass salt)
    (iv_length L pass salt) (pkcs7Pad_length _)]
  simp only [hL.unpad_pad, jsonUnmarshalString, jsonMarshalString, hL.json_string _ hv,
    decodeString]

theorem encryptWithSalt_sealed (L : Lib) (plain pass salt : Bytes) :
    encryptWithSalt L plain pass salt = .ret (sealedEnvelope L plain pass salt) :=
  encryptWithSalt_eq L plain pass salt

theorem decrypt_sealed (L : Lib) (hL : L.Lawful) (plain pass salt : Bytes)
    (hv : toValidUTF8 plain = plain) :
    decrypt L (sealedEnvelope L plain pass salt) pass = .ret plain := by
  obtain ⟨e, he, hd⟩ := decrypt_encryptWithSalt L hL plain pass salt (by rw [hv, hv])
  rw [encryptWithSalt_sealed] at he
  cases he
  rw [hv] at hd
  exact hd

/-! ## The reference instance meets the laws -/

theorem toValidUTF8Aux_ascii : ∀ (fuel : Nat) (s : Bytes), s.length ≤ fuel →
    (∀ b ∈ s, b.val < 0x80) → toValidUTF8Aux fuel s = s
  | 0, [], _, _ => rfl
  | 0, _ :: _, h, _ => by simp at h
  | _ + 1, [], _, _ => rfl
  | fuel + 1, b :: rest, h, hs => by
    have hb : b.val < 0x80 := hs b (List.mem_cons_self _ _)
    have ih := toValidUTF8Aux_ascii fuel rest (by simpa using h)
      (fun c hc => hs c (List.mem_cons_of_mem _ hc))
    simp [toValidUTF8Aux, runeLen, hb, ih]

theorem toValidUTF8_ascii (s : Bytes) (hs : ∀ b ∈ s, b.val < 0x80) : toValidUTF8 s = s :=
  toValidUTF8Aux_ascii s.length s (Nat.le_refl _) hs

namespace Ref

theorem hexVal_hexDigit : ∀ n : Fin 16, hexVal (hexDigit n.val) = some n.val := by decide

theorem hexDigit_ascii : ∀ n : Fin 16, (hexDigit n.val).val < 0x80 := by decide

theorem byte_ofNat (n : Nat) (b : Byte) (h : n = b.val) : (Fin.ofNat n : Byte) = b := by
  apply Fin.ext
  show n % 256 = b.val
  have := b.isLt
  omega

theorem hexDecode_hexEncode : ∀ data : Bytes, hexDecode (hexEncode data) = some data
  | [] => rfl
  | b :: rest => by
    have h1 := hexVal_hexDigit ⟨b.val / 16, by have := b.isLt; omega⟩
    have h2 := hexVal_hexDigit ⟨b.val % 16, by omega⟩
    simp only at h1 h2
    simp only [hexEncode, hexDecode, h1, h2, hexDecode_hexEncode rest,
      byte_ofNat (b.val / 16 * 16 + b.val % 16) b (by omega)]

theorem hexEncode_ascii : ∀ (data : Bytes), ∀ c ∈ hexEncode data, c.val < 0x80
  | [], c, hc => by simp [hexEncode] at hc
  | b :: rest, c, hc => by
    simp only [hexEncode, List.mem_cons] at hc
    rcases hc with h | h | h
    · rw [h]; exact hexDigit_ascii ⟨b.val / 16, by have := b.isLt; omega⟩
    · rw [h]; exact hexDigit_ascii ⟨b.val % 16, by omega⟩
    · exact hexEncode_ascii rest c h

theorem readStr_escape : ∀ (s rest : Bytes),
    readStr (s.flatMap escapeByte ++ 0x22 :: rest) = some (s, rest)
  | [], rest => by
    rw [List.flatMap_nil, List.nil_append, readStr.eq_def]
    simp
  | b :: s, rest => by
    have ih := readStr_escape s rest
    simp only [List.flatMap_cons, List.append_assoc]
    by_cases hq : b = 0x22
    · subst hq
      have e : escapeByte 0x22 = [0x5C, 0x22] := by decide
      have e1 : ¬ ((0x5C : Byte) = 0x22) := by decide
      have e2 : ¬ ((0x22 : Byte) = 0x75) := by decide
      have e3 : simpleEscape 0x22 = some 0x22 := by decide
      rw [e, List.cons_append, List.cons_append, List.nil_append, readStr.eq_def]
      simp only [e1, ↓reduceIte, e2, e3, ih]
    · by_cases hb : b = 0x5C
      · subst hb
        have e : escapeByte 0x5C = [0x5C, 0x5C] := by decide
        have e1 : ¬ ((0x5C : Byte) = 0x22) := by decide
        have e2 : ¬ ((0x5C : Byte) = 0x75) := by decide
        have e3 : simpleEscape 0x5C = some 0x5C := by decide
        rw [e, List.cons_append, List.cons_append, List.nil_append, readStr.eq_def]
        simp only [e1, ↓reduceIte, e2, e3, ih]
      · by_cases hc : b.val < 0x20 ∨ b = 0x3C ∨ b = 0x3E ∨ b = 0x26
        · have hlt := b.isLt
          have h1 := hexVal_hexDigit ⟨b.val / 16, by omega⟩
          have h2 := hexVal_hexDigit ⟨b.val % 16, by omega⟩
          simp only at h1 h2
          have e1 : ¬ ((0x5C : Byte) = 0x22) := by decide
          have hx : b.val / 16 < 8 := by
            rcases hc with h | h | h | h
            · omega
            · subst h; decide
            · subst h; decide
            · subst h; decide
          simp only [escapeByte, hq, hb, hc, ↓reduceIte, List.cons_append, List.nil_append]
          rw [readStr.eq_def]
          simp only [e1, ↓reduceIte, h1, h2, ih, and_self, hx,
            byte_ofNat (b.val / 16 * 16 + b.val % 16) b (by omega)]
        · have hc1 : ¬ b.val < 0x20 := fun h => hc (Or.inl h)
          simp only [escapeByte, hq, hb, hc, ↓reduceIte, List.cons_append, List.nil_append]
          rw [readStr.eq_def]
          simp only [hq, hb, hc1, ↓reduceIte, ih]

theorem skipWs_cons (c : Byte) (t : Bytes) (hc : isWs c = false) : skipWs (c :: t) = c :: t := by
  simp [skipWs, List.dropWhile_cons, hc]

theorem skipWs_renderStr (s rest : Bytes) : skipWs (renderStr s ++ rest) = renderStr s ++ rest :=
  skipWs_cons _ _ (by decide)

theorem parseVal_renderStr (s rest : Bytes) (hs : toValidUTF8 s = s) :
    parseVal (renderStr s ++ rest) = some (.str s, rest) := by
  have hr := readStr_escape s rest
  simp only [renderStr, List.cons_append, List.append_assoc, List.singleton_append, parseVal,
    ↓reduceIte, List.nil_append, hr, hs]

theorem jsonParse_string (s : Bytes) (hs : toValidUTF8 s = s) :
    jsonParse (jsonRender (.str s)) = some (.str s) := by
  have h := parseVal_renderStr s [] hs
  have hw := skipWs_renderStr s []
  rw [List.append_nil] at h hw
  have hc : (0x22 : Byte) ≠ 0x7B := by decide
  simp only [jsonRender, renderVal, jsonParse, hw]
  rw [renderStr] at h ⊢
  simp only [hc, ↓reduceIte, h, skipWs, List.dropWhile_nil]

end Ref
namespace Ref

theorem parseVal_renderVal (v : Json) (c : Byte) (rest : Bytes) (hc : isDigit c = false)
    (hv : (∃ s, v = .str s ∧ toValidUTF8 s = s) ∨ ∃ d : Byte, isDigit d = true ∧ v = .num [d]) :
    parseVal (renderVal v ++ c :: rest) = some (v, c :: rest) ∧
      skipWs (renderVal v ++ c :: rest) = renderVal v ++ c :: rest := by
  rcases hv with ⟨s, rfl, hs⟩ | ⟨d, hd, rfl⟩
  · exact ⟨parseVal_renderStr s _ hs, skipWs_renderStr s _⟩
  · have hq : d ≠ 0x22 := by
      intro h
      rw [h] at hd
      revert hd
      decide
    have hw : isWs d = false := by
      cases hw : isWs d with
      | false => rfl
      | true =>
        simp only [isWs, Bool.or_eq_true, decide_eq_true_eq] at hw
        rcases hw with ((h | h) | h) | h <;> rw [h] at hd <;> revert hd <;> decide
    refine ⟨?_, skipWs_cons _ _ hw⟩
    simp only [renderVal, List.singleton_append, parseVal, hq, ↓reduceIte, hd,
      List.takeWhile_cons, hc, List.dropWhile_cons, Bool.false_eq_true]

theorem renderMembers_length : ∀ (fields : List (Bytes × Json)),
    fields.length ≤ (renderMembers fields).length
  | [] => by simp [renderMembers]
  | [kv] => by simp [renderMembers]
  | kv :: kv2 :: rest => by
    have ih := renderMembers_length (kv2 :: rest)
    simp only [renderMembers, List.length_append, List.length_cons] at ih ⊢
    omega

theorem parseMembers_render : ∀ (kv : Bytes × Json) (fields : List (Bytes × Json)) (fuel : Nat),
    fields.length < fuel →
    (∀ x ∈ kv :: fields, toValidUTF8 x.1 = x.1 ∧
      ((∃ s, x.2 = .str s ∧ toValidUTF8 s = s) ∨
        ∃ d : Byte, isDigit d = true ∧ x.2 = .num [d])) →
    parseMembers fuel (renderMembers (kv :: fields)) = some (kv :: fields)
  | kv, [], fuel + 1, _, hs => by
    obtain ⟨hk, hv⟩ := hs kv (List.mem_cons_self _ _)
    obtain ⟨hp, hw⟩ := parseVal_renderVal kv.2 0x7D [] (by decide) hv
    have hr := readStr_escape kv.1 (0x3A :: (renderVal kv.2 ++ [0x7D]))
    have hw1 : skipWs (0x3A :: (renderVal kv.2 ++ [0x7D])) = 0x3A :: (renderVal kv.2 ++ [0x7D]) :=
      skipWs_cons _ _ (by decide)
    have hw2 : skipWs [(0x7D : Byte)] = [0x7D] := skipWs_cons _ _ (by decide)
    have hne : ¬ ((0x7D : Byte) = 0x2C) := by decide
    have hnil : skipWs [] = [] := rfl
    have hm : renderMembers [kv] =
        0x22 :: (kv.1.flatMap escapeByte ++ 0x22 :: 0x3A :: (renderVal kv.2 ++ [0x7D])) := by
      simp [renderMembers, renderMember, renderStr]
    rw [hm, parseMembers, skipWs_cons _ _ (by decide)]
    simp only [↓reduceIte, hr, hw1, hw, hp, hw2, hne, hnil, hk]
  | kv, kv2 :: fields, fuel + 1, hlen, hs => by
    obtain ⟨hk, hv⟩ := hs kv (List.mem_cons_self _ _)
    have ih := parseMembers_render kv2 fields fuel (by simpa using hlen)
      (fun x hx => hs x (List.mem_cons_of_mem _ hx))
    obtain ⟨hp, hw⟩ := parseVal_renderVal kv.2 0x2C (renderMembers (kv2 :: fields)) (by decide) hv
    have hr := readStr_escape kv.1
      (0x3A :: (renderVal kv.2 ++ 0x2C :: renderMembers (kv2 :: fields)))
    have hw1 : skipWs (0x3A :: (renderVal kv.2 ++ 0x2C :: renderMembers (kv2 :: fields))) =
        0x3A :: (renderVal kv.2 ++ 0x2C :: renderMembers (kv2 :: fields)) :=
      skipWs_cons _ _ (by decide)
    have hw2 : skipWs (0x2C :: renderMembers (kv2 :: fields)) =
        0x2C :: renderMembers (kv2 :: fields) := skipWs_cons _ _ (by decide)
    have hm : renderMembers (kv :: kv2 :: fields) =
        0x22 :: (kv.1.flatMap escapeByte ++ 0x22 :: 0x3A ::
          (renderVal kv.2 ++ 0x2C :: renderMembers (kv2 :: fields))) := by
      simp [renderMembers, renderMember, renderStr]
    rw [hm, parseMembers, skipWs_cons _ _ (by decide)]
    simp only [↓reduceIte, hr, hw1, hw, hp, hw2, ih, Option.map_some', hk]

theorem jsonParse_simple (fields : List (Bytes × Json))
    (hs : ∀ x ∈ fields, toValidUTF8 x.1 = x.1 ∧
      ((∃ s, x.2 = .str s ∧ toValidUTF8 s = s) ∨
        ∃ d : Byte, isDigit d = true ∧ x.2 = .num [d])) :
    jsonParse (jsonRender (.obj fields)) = some (.obj fields) := by
  have hb : skipWs (0x7B :: renderMembers fields) = 0x7B :: renderMembers fields :=
    skipWs_cons _ _ (by decide)
  simp only [jsonRender, jsonParse, hb, ↓reduceIte]
  cases fields with
  | nil =>
    have h1 : skipWs (renderMembers []) = [0x7D] := skipWs_cons _ _ (by decide)
    have hnil : skipWs [] = [] := rfl
    simp only [h1, ↓reduceIte, hnil]
  | cons kv fields =>
    have hlen := renderMembers_length (kv :: fields)
    have hq : ¬ ((0x22 : Byte) = 0x7D) := by decide
    have h1 : ∃ t, renderMembers (kv :: fields) = 0x22 :: t := by
      cases fields with
      | nil => exact ⟨_, by simp [renderMembers, renderMember, renderStr]; rfl⟩
      | cons kv2 fields => exact ⟨_, by simp [renderMembers, renderMember, renderStr]; rfl⟩
    obtain ⟨t, ht⟩ := h1
    have h2 : skipWs (renderMembers (kv :: fields)) = 0x22 :: t := by
      rw [ht]; exact skipWs_cons _ _ (by decide)
    simp only [h2, hq, ↓reduceIte]
    rw [parseMembers_render kv fields _ (by simp only [List.length_cons] at hlen; omega) hs]
    rfl

theorem jsonParse_strings (kvs : List (Bytes × Bytes))
    (hs : ∀ kv ∈ kvs, toValidUTF8 kv.1 = kv.1 ∧ toValidUTF8 kv.2 = kv.2) :
    jsonParse (jsonRender (.obj (kvs.map (fun kv => (kv.1, Json.str kv.2))))) =
      some (.obj (kvs.map (fun kv => (kv.1, Json.str kv.2)))) := by
  apply jsonParse_simple
  intro kv hkv
  obtain ⟨x, hx, rfl⟩ := List.mem_map.mp hkv
  exact ⟨(hs x hx).1, Or.inl ⟨x.2, rfl, (hs x hx).2⟩⟩

theorem jsonParse_w (t : Bytes) : jsonParse (0x77 :: t) = none := by
  have hb : skipWs (0x77 :: t) = 0x77 :: t := skipWs_cons _ _ (by decide)
  have h1 : ¬ ((0x77 : Byte) = 0x7B) := by decide
  have h2 : ¬ ((0x77 : Byte) = 0x22) := by decide
  have h3 : isDigit 0x77 = false := by decide
  have h4 : ¬ ((0x77 : Byte) = 0x2D) := by decide
  have h5 : ∀ x : Bytes, (ofString "null").isPrefixOf (0x77 :: x) = false := fun _ => rfl
  have h6 : ∀ x : Bytes, (ofString "true").isPrefixOf (0x77 :: x) = false := fun _ => rfl
  have h7 : ∀ x : Bytes, (ofString "false").isPrefixOf (0x77 :: x) = false := fun _ => rfl
  simp only [jsonParse, hb, h1, ↓reduceIte, parseVal, h2, h3, h4, h5, h6, h7, Bool.false_eq_true]

end Ref
namespace Ref

theorem readStr_shape : ∀ (n : Nat) (x s r : Bytes), x.length ≤ n → readStr x = some (s, r) →
    ∃ pre, x = pre ++ 0x22 :: r := by
  intro n
  induction n with
  | zero =>
    intro x s r hx h
    have : x = [] := List.length_eq_zero.mp (Nat.le_zero.mp hx)
    subst this
    simp [readStr] at h
  | succ n ih =>
    intro x s r hx h
    rw [readStr.eq_def] at h
    split at h
    · simp at h
    · rename_i c rest
      simp only [List.length_cons] at hx
      split at h
      · rename_i hc
        simp only [Option.some.injEq, Prod.mk.injEq] at h
        exact ⟨[], by rw [hc, h.2]; rfl⟩
      · split at h
        · split at h
          · simp at h
          · rename_i e rest1
            simp only [List.length_cons] at hx
            split at h
            · split at h
              · rename_i z1 z2 hh l rest2
                simp only [List.length_cons] at hx
                split at h
                · rename_i x' y' s' r' _ _ hr
                  split at h
                  · simp only [Option.some.injEq, Prod.mk.injEq] at h
                    obtain ⟨pre, hpre⟩ := ih rest2 s' r' (by omega) hr
                    exact ⟨c :: e :: z1 :: z2 :: hh :: l :: pre, by rw [hpre, h.2]; rfl⟩
                  · simp at h
                · simp at h
              · simp at h
            · split at h
              · rename_i b s' r' _ hr
                simp only [Option.some.injEq, Prod.mk.injEq] at h
                obtain ⟨pre, hpre⟩ := ih rest1 s' r' (by omega) hr
                exact ⟨c :: e :: pre, by rw [hpre, h.2]; rfl⟩
              · simp at h
        · split at h
          · simp at h
          · split at h
            · rename_i s' r' hr
              simp only [Option.some.injEq, Prod.mk.injEq] at h
              obtain ⟨pre, hpre⟩ := ih rest s' r' (by omega) hr
              exact ⟨c :: pre, by rw [hpre, h.2]; rfl⟩
            · simp at h

end Ref
namespace Ref

theorem skipWs_suffix (t : Bytes) : skipWs t <:+ t := List.dropWhile_suffix _

theorem last_digit (c : Byte) (l : Bytes) (hc : isDigit c = true) :
    ∃ pre last, c :: l.takeWhile isDigit = pre ++ [last] ∧ last ≠ 0x23 := by
  have hne : c :: l.takeWhile isDigit ≠ [] := by simp
  refine ⟨(c :: l.takeWhile isDigit).dropLast, (c :: l.takeWhile isDigit).getLast hne,
    (List.dropLast_append_getLast hne).symm, ?_⟩
  have hmem := List.getLast_mem hne
  have hd : isDigit ((c :: l.takeWhile isDigit).getLast hne) = true := by
    rcases List.mem_cons.mp hmem with h | h
    · rw [h]; exact hc
    · exact (List.mem_takeWhile_imp h)
  intro h
  rw [h] at hd
  revert hd
  decide

theorem prefix_drop (p x : Bytes) (h : p.isPrefixOf x = true) : p ++ x.drop p.length = x := by
  obtain ⟨t, ht⟩ := List.isPrefixOf_iff_prefix.mp h
  rw [← ht, List.drop_left]

theorem parseVal_shape (x : Bytes) (v : Json) (r : Bytes) (h : parseVal x = some (v, r)) :
    ∃ last, (last :: r) <:+ x ∧ last ≠ 0x23 := by
  rw [parseVal.eq_def] at h
  split at h
  · simp at h
  · rename_i c rest
    split at h
    · rename_i hc
      split at h
      · rename_i s r' hr
        simp only [Option.some.injEq, Prod.mk.injEq] at h
        obtain ⟨pre, hpre⟩ := readStr_shape _ rest s r' (Nat.le_refl _) hr
        exact ⟨0x22, ⟨c :: pre, by rw [hpre, h.2]; rfl⟩, by decide⟩
      · simp at h
    · split at h
      · rename_i hd
        simp only [Option.some.injEq, Prod.mk.injEq] at h
        obtain ⟨pre, last, hl, hne⟩ := last_digit c rest hd
        refine ⟨last, ⟨pre, ?_⟩, hne⟩
        rw [← h.2]
        calc pre ++ last :: List.dropWhile isDigit rest
            = (pre ++ [last]) ++ List.dropWhile isDigit rest := by simp
          _ = c :: (rest.takeWhile isDigit ++ rest.dropWhile isDigit) := by rw [← hl]; rfl
          _ = c :: rest := by rw [List.takeWhile_append_dropWhile]
      · split at h
        · split at h
          · simp at h
          · rename_i d rest1
            split at h
            · rename_i hd
              simp only [Option.some.injEq, Prod.mk.injEq] at h
              obtain ⟨pre, last, hl, hne⟩ := last_digit d rest1 hd
              refine ⟨last, ⟨c :: pre, ?_⟩, hne⟩
              rw [← h.2]
              calc c :: pre ++ last :: List.dropWhile isDigit rest1
                  = c :: ((pre ++ [last]) ++ List.dropWhile isDigit rest1) := by simp
                _ = c :: d :: (rest1.takeWhile isDigit ++ rest1.dropWhile isDigit) := by
                    rw [← hl]; rfl
                _ = c :: d :: rest1 := by rw [List.takeWhile_append_dropWhile]
            · simp at h
        · split at h
          · rename_i hp
            simp only [Option.some.injEq, Prod.mk.injEq] at h
            have hx := prefix_drop _ _ hp
            refine ⟨0x6C, ⟨ofString "nul", ?_⟩, by decide⟩
            rw [← h.2]
            exact hx
          · split at h
            · rename_i hp
              simp only [Option.some.injEq, Prod.mk.injEq] at h
              have hx := prefix_drop _ _ hp
              refine ⟨0x65, ⟨ofString "tru", ?_⟩, by decide⟩
              rw [← h.2]
              exact hx
            · split at h
              · rename_i hp
                simp only [Option.some.injEq, Prod.mk.injEq] at h
                have hx := prefix_drop _ _ hp
                refine ⟨0x65, ⟨ofString "fals", ?_⟩, by decide⟩
                rw [← h.2]
                exact hx
              · simp at h

end Ref
namespace Ref

theorem readStr_suffix (x s r : Bytes) (h : readStr x = some (s, r)) : r <:+ x := by
  obtain ⟨pre, hpre⟩ := readStr_shape _ x s r (Nat.le_refl _) h
  exact ⟨pre ++ [0x22], by rw [hpre]; simp⟩

theorem suffix_of_cons {a : Byte} {r x : Bytes} (h : (a :: r) <:+ x) : r <:+ x :=
  (List.suffix_cons a r).trans h

theorem parseMembers_shape : ∀ (fuel : Nat) (x : Bytes) (fs : List (Bytes × Json)),
    parseMembers fuel x = some fs → ∃ r, (0x7D :: r) <:+ x ∧ skipWs r = [] := by
  intro fuel
  induction fuel with
  | zero => intro x fs h; simp [parseMembers] at h
  | succ fuel ih =>
    intro x fs h
    rw [parseMembers] at h
    split at h
    · simp at h
    · rename_i c rest h0
      have s0 : (c :: rest) <:+ x := h0 ▸ skipWs_suffix x
      split at h
      · split at h
        · simp at h
        · rename_i k r1 h1
          have s1 : r1 <:+ rest := readStr_suffix _ _ _ h1
          split at h
          · simp at h
          · rename_i colon r2 h2
            have s2 : (colon :: r2) <:+ r1 := h2 ▸ skipWs_suffix r1
            split at h
            · split at h
              · simp at h
              · rename_i v r3 h3
                obtain ⟨last, s3, _⟩ := parseVal_shape _ v r3 h3
                have s3b : r3 <:+ r2 := (suffix_of_cons s3).trans (skipWs_suffix r2)
                split at h
                · simp at h
                · rename_i d r4 h4
                  have s4 : (d :: r4) <:+ r3 := h4 ▸ skipWs_suffix r3
                  have s5 : (d :: r4) <:+ x :=
                    s4.trans (s3b.trans ((suffix_of_cons s2).trans
                      (s1.trans (suffix_of_cons s0))))
                  split at h
                  · cases hfs : parseMembers fuel r4 with
                    | none => simp [hfs] at h
                    | some fs1 =>
                      obtain ⟨r, hr, hw⟩ := ih r4 fs1 hfs
                      exact ⟨r, hr.trans (suffix_of_cons s5), hw⟩
                  · split at h
                    · rename_i hd
                      split at h
                      · rename_i hw
                        exact ⟨r4, hd ▸ s5, hw⟩
                      · simp at h
                    · simp at h
            · simp at h
      · simp at h

theorem skipWs_nil_mem (r : Bytes) (h : skipWs r = []) : ∀ b ∈ r, isWs b = true := by
  intro b hb
  exact (List.dropWhile_eq_nil_iff.mp h) b hb

theorem no_hash (last : Byte) (r t : Bytes) (hs : (last :: r) <:+ (t ++ [0x23]))
    (hw : skipWs r = []) (hne : last ≠ 0x23) : False := by
  obtain ⟨pre, hpre⟩ := hs
  have hne1 : pre ++ last :: r ≠ [] := by simp
  have hne2 : t ++ [(0x23 : Byte)] ≠ [] := by simp
  have hl : (pre ++ last :: r).getLast hne1 = (t ++ [(0x23 : Byte)]).getLast hne2 := by
    simp only [hpre]
  rw [List.getLast_append_singleton] at hl
  have hne3 : last :: r ≠ [] := by simp
  rw [List.getLast_append_of_ne_nil hne3] at hl
  have hmem := List.getLast_mem hne3
  rw [hl] at hmem
  rcases List.mem_cons.mp hmem with h | h
  · exact hne h.symm
  · have := skipWs_nil_mem r hw _ h
    revert this
    decide

theorem jsonParse_hash (t : Bytes) : jsonParse (t ++ [0x23]) = none := by
  cases hj : jsonParse (t ++ [0x23]) with
  | none => rfl
  | some v =>
    exfalso
    rw [jsonParse] at hj
    split at hj
    · simp at hj
    · rename_i c rest h0
      have s0 : (c :: rest) <:+ (t ++ [0x23]) := h0 ▸ skipWs_suffix _
      split at hj
      · split at hj
        · simp at hj
        · rename_i d r h1
          have s1 : (d :: r) <:+ rest := h1 ▸ skipWs_suffix rest
          split at hj
          · rename_i hd
            split at hj
            · rename_i hw
              exact no_hash d r t (s1.trans (suffix_of_cons s0)) hw (by rw [hd]; decide)
            · simp at hj
          · cases hfs : parseMembers rest.length rest with
            | none => simp [hfs] at hj
            | some fs =>
              obtain ⟨r', hr, hw⟩ := parseMembers_shape _ rest fs hfs
              exact no_hash 0x7D r' t (hr.trans (suffix_of_cons s0)) hw (by decide)
      · split at hj
        · rename_i v' r hv
          split at hj
          · rename_i hw
            obtain ⟨last, hs, hne⟩ := parseVal_shape _ v' r hv
            exact no_hash last r t (hs.trans s0) hw hne
          · simp at hj
        · simp at hj

end Ref
namespace Ref

theorem b64Val_b64Char : ∀ n : Fin 64, b64Val (b64Char n.val) = some n.val := by decide

theorem b64Char_ne_pad : ∀ n : Fin 64, b64Char n.val ≠ 0x3D := by decide

theorem b64Char_ascii : ∀ n : Fin 64, (b64Char n.val).val < 0x80 := by decide

theorem base64Decode_base64Encode : ∀ data : Bytes, base64Decode (base64Encode data) = some data
  | [] => rfl
  | [a] => by
    have ha := a.isLt
    have h0 := b64Val_b64Char ⟨a.val / 4, by omega⟩
    have h1 := b64Val_b64Char ⟨a.val % 4 * 16, by omega⟩
    simp only at h0 h1
    simp only [base64Encode, base64Decode, h0, h1, and_self, ↓reduceIte, Option.some.injEq,
      List.cons.injEq, and_true]
    exact byte_ofNat _ a (by omega)
  | [a, b] => by
    have ha := a.isLt
    have hb := b.isLt
    have h0 := b64Val_b64Char ⟨a.val / 4, by omega⟩
    have h1 := b64Val_b64Char ⟨a.val % 4 * 16 + b.val / 16, by omega⟩
    have h2 := b64Val_b64Char ⟨b.val % 16 * 4, by omega⟩
    have n2 := b64Char_ne_pad ⟨b.val % 16 * 4, by omega⟩
    simp only at h0 h1 h2 n2
    simp only [base64Encode, base64Decode, h0, h1, h2, n2, false_and, and_self, ↓reduceIte,
      Option.some.injEq, List.cons.injEq, and_true]
    exact ⟨byte_ofNat _ a (by omega), byte_ofNat _ b (by omega)⟩
  | a :: b :: c :: rest => by
    have ha := a.isLt
    have hb := b.isLt
    have hc := c.isLt
    have h0 := b64Val_b64Char ⟨a.val / 4, by omega⟩
    have h1 := b64Val_b64Char ⟨a.val % 4 * 16 + b.val / 16, by omega⟩
    have h2 := b64Val_b64Char ⟨b.val % 16 * 4 + c.val / 64, by omega⟩
    have h3 := b64Val_b64Char ⟨c.val % 64, by omega⟩
    have n2 := b64Char_ne_pad ⟨b.val % 16 * 4 + c.val / 64, by omega⟩
    have n3 := b64Char_ne_pad ⟨c.val % 64, by omega⟩
    simp only at h0 h1 h2 h3 n2 n3
    simp only [base64Encode, base64Decode, h0, h1, h2, h3, n2, n3, false_and, ↓reduceIte,
      base64Decode_base64Encode rest, Option.some.injEq, List.cons.injEq, and_true]
    exact ⟨byte_ofNat _ a (by omega), byte_ofNat _ b (by omega), byte_ofNat _ c (by omega)⟩

theorem base64Encode_ascii : ∀ (data : Bytes), ∀ x ∈ base64Encode data, x.val < 0x80
  | [], x, hx => by simp [base64Encode] at hx
  | [a], x, hx => by
    have ha := a.isLt
    simp only [base64Encode, List.mem_cons, List.mem_singleton, List.not_mem_nil, or_false] at hx
    rcases hx with h | h | h | h
    · rw [h]; exact b64Char_ascii ⟨a.val / 4, by omega⟩
    · rw [h]; exact b64Char_ascii ⟨a.val % 4 * 16, by omega⟩
    · rw [h]; decide
    · rw [h]; decide
  | [a, b], x, hx => by
    have ha := a.isLt
    have hb := b.isLt
    simp only [base64Encode, List.mem_cons, List.mem_singleton, List.not_mem_nil, or_false] at hx
    rcases hx with h | h | h | h
    · rw [h]; exact b64Char_ascii ⟨a.val / 4, by omega⟩
    · rw [h]; exact b64Char_ascii ⟨a.val % 4 * 16 + b.val / 16, by omega⟩
    · rw [h]; exact b64Char_ascii ⟨b.val % 16 * 4, by omega⟩
    · rw [h]; decide
  | a :: b :: c :: rest, x, hx => by
    have ha := a.isLt
    have hb := b.isLt
    have hc := c.isLt
    simp only [base64Encode, List.mem_cons] at hx
    rcases hx with h | h | h | h | h
    · rw [h]; exact b64Char_ascii ⟨a.val / 4, by omega⟩
    · rw [h]; exact b64Char_ascii ⟨a.val % 4 * 16 + b.val / 16, by omega⟩
    · rw [h]; exact b64Char_ascii ⟨b.val % 16 * 4 + c.val / 64, by omega⟩
    · rw [h]; exact b64Char_ascii ⟨c.val % 64, by omega⟩
    · exact base64Encode_ascii rest x h

theorem fit_length (x : Bytes) : (fit x).length = 16 := by
  simp [fit]

theorem fit_of_length (x : Bytes) (h : x.length = 16) : fit x = x := by
  rw [fit, List.take_append_of_le_length (by omega), List.take_of_length_le (by omega)]

theorem aesCrypt_aesCrypt (key block : Bytes) (h : block.length = 16) :
    aesCrypt key (aesCrypt key block) = block := by
  have hx : (xorBytes (fit block) (fit key)).length = 16 := by
    rw [xorBytes_length, fit_length, fit_length]; rfl
  rw [aesCrypt, aesCrypt, fit_of_length _ hx, fit_of_length _ h,
    xorBytes_cancel _ _ (by rw [h, fit_length])]

theorem pkcs7Unpad_pkcs7Pad (data : Bytes) : pkcs7Unpad (pkcs7Pad data 16) = some data := by
  obtain ⟨n, hn⟩ : ∃ n, n = 16 - data.length % 16 := ⟨_, rfl⟩
  have h1 : 1 ≤ n := by omega
  have h16 : n ≤ 16 := by omega
  have hval : (Fin.ofNat n : Byte).val = n := by
    show n % 256 = n
    omega
  have hlast : (data ++ List.replicate n (Fin.ofNat n : Byte)).getLast? = some (Fin.ofNat n) := by
    obtain ⟨m, rfl⟩ : ∃ m, n = m + 1 := ⟨n - 1, by omega⟩
    rw [List.replicate_succ', ← List.append_assoc, List.getLast?_append]
    simp
  have hlen : (data ++ List.replicate n (Fin.ofNat n : Byte)).length = data.length + n := by
    simp
  simp only [pkcs7Pad, ← hn, pkcs7Unpad, hlast, hval, hlen]
  have hz : ¬ (n = 0 ∨ data.length + n < n) := by omega
  simp only [hz, ↓reduceIte, Nat.add_sub_cancel, List.drop_left, List.take_left]
  simp

end Ref

theorem refLib_lawful : refLib.Lawful where
  aes_decrypt_encrypt := fun key block _ hb => Ref.aesCrypt_aesCrypt key block hb
  aes_encrypt_decrypt := fun key block _ hb => Ref.aesCrypt_aesCrypt key block hb
  unpad_pad := Ref.pkcs7Unpad_pkcs7Pad
  base64_decode_encode := Ref.base64Decode_base64Encode
  base64_valid := fun data => toValidUTF8_ascii _ (Ref.base64Encode_ascii data)
  hex_decode_encode := Ref.hexDecode_hexEncode
  hex_valid := fun data => toValidUTF8_ascii _ (Ref.hexEncode_ascii data)
  json_string := fun s hs => Ref.jsonParse_string s hs
  json_envelope := fun ct iv s hct hiv hs =>
    Ref.jsonParse_strings [(ofString "ct", ct), (ofString "iv", iv), (ofString "s", s)]
      (by
        intro kv hkv
        simp only [List.mem_cons, List.mem_singleton, List.not_mem_nil, or_false] at hkv
        rcases hkv with h | h | h <;> subst h
        · exact ⟨(by decide : toValidUTF8 (ofString "ct") = ofString "ct"), hct⟩
        · exact ⟨(by decide : toValidUTF8 (ofString "iv") = ofString "iv"), hiv⟩
        · exact ⟨(by decide : toValidUTF8 (ofString "s") = ofString "s"), hs⟩)

/-! ## C2: key derivation -/

/-- C2. For every password and salt, the derivation loop of `encrypt` and the
one of `decrypt` both end after exactly 3 `md5.Sum` calls with the 48-byte
stream `block0 ‖ block1 ‖ block2`, where `block0 = MD5(pass ‖ salt)` and
`block[n+1] = MD5(block[n] ‖ pass ‖ salt)`; bytes 0..32 of the stream (the AES
key) are `block0 ‖ block1` and bytes 32..48 (the IV) are `block2`, the same in
both functions.  These are the key and the IV the two functions use: `encrypt`
returns the envelope whose `ct` is the CBC encryption of the padded text under
the key `block0 ‖ block1` with the IV `block2`, and `decrypt` of an envelope
whose `s` member decodes to the salt runs `CryptBlocks` with the key
`block0 ‖ block1` and the IV `block2` on the decoded `ct`. -/
theorem derive_three_rounds (L : Lib) (pass salt : Bytes) :
    encryptDerive L pass salt [] [] 0 = (md5Stream L pass salt, 3) ∧
    decryptDerive L pass salt [] [] 0 = (md5Stream L pass salt, 3) ∧
    md5Stream L pass salt =
      md5Block L pass salt 0 ++ md5Block L pass salt 1 ++ md5Block L pass salt 2 ∧
    md5Block L pass salt 0 = L.md5Sum (pass ++ salt) ∧
    (∀ n, md5Block L pass salt (n + 1) = L.md5Sum (md5Block L pass salt n ++ pass ++ salt)) ∧
    (md5Stream L pass salt).length = 48 ∧
    ((encryptDerive L pass salt [] [] 0).1.take 32 =
        md5Block L pass salt 0 ++ md5Block L pass salt 1 ∧
      ((encryptDerive L pass salt [] [] 0).1.drop 32).take 16 = md5Block L pass salt 2) ∧
    ((decryptDerive L pass salt [] [] 0).1.take 32 = (encryptDerive L pass salt [] [] 0).1.take 32 ∧
      ((decryptDerive L pass salt [] [] 0).1.drop 32).take 16 =
        ((encryptDerive L pass salt [] [] 0).1.drop 32).take 16) ∧
    (∀ plain, encrypt L plain pass (some salt) =
      .ret (envelope L
        (L.base64Encode (cbcEncryptBlocks
          (L.aesEncrypt (md5Block L pass salt 0 ++ md5Block L pass salt 1))
          ((pkcs7Pad (jsonMarshalString L plain) 16).length / 16)
          (md5Block L pass salt 2) (pkcs7Pad (jsonMarshalString L plain) 16)))
        (L.hexEncode (md5Block L pass salt 2)) (L.hexEncode salt))) ∧
    (∀ (j : Bytes) (jd : StringMap) (ciphertext : Bytes),
      jsonUnmarshalStringMap L j = some jd →
      L.hexDecode (jd.get (ofString "s")) = some salt →
      L.base64Decode (jd.get (ofString "ct")) = some ciphertext →
      decrypt L j pass =
        match cryptBlocks (cbcDecryptBlocks (L.aesDecrypt
            (md5Block L pass salt 0 ++ md5Block L pass salt 1)))
            (md5Block L pass salt 2) ciphertext with
        | .panic msg => .panic msg
        | .err e => .err e
        | .ret out =>
          match L.pkcs7Unpad out with
          | none => .err (.lib "pkcs7.Unpad")
          | some up =>
            match jsonUnmarshalString L up with
            | none => .err (.lib "json.Unmarshal")
            | some outString => .ret outString) := by
  refine ⟨encryptDerive_eq L pass salt, decryptDerive_eq L pass salt, rfl, rfl, fun _ => rfl,
    md5Stream_length L pass salt, ?_, ?_, ?_, ?_⟩
  · rw [encryptDerive_eq]
    exact ⟨md5Stream_key L pass salt, md5Stream_iv L pass salt⟩
  · rw [encryptDerive_eq, decryptDerive_eq]
    exact ⟨rfl, rfl⟩
  · intro plain
    rw [encrypt, encryptWithSalt_eq, md5Stream_key, md5Stream_iv]
  · intro j jd ciphertext hj hs hc
    exact decrypt_members L j pass jd salt ciphertext hj hs hc

/-- Witness of C2: the envelope the reference instance seals for `hello world`
is read by `decrypt` with the key and the IV of its salt. -/
theorem derive_three_rounds_witness :
    jsonUnmarshalStringMap refLib (ofString
        "\x7b\"ct\":\"woiFjIyPwJePkoyEwuPj4w==\",\"iv\":\"36363636363636363636363636363636\",\"s\":\"0101020305080d15\"\x7d") =
      some [(ofString "s", ofString "0101020305080d15"),
        (ofString "iv", ofString "36363636363636363636363636363636"),
        (ofString "ct", ofString "woiFjIyPwJePkoyEwuPj4w==")] ∧
    refLib.hexDecode (ofString "0101020305080d15") =
      some [0x01, 0x01, 0x02, 0x03, 0x05, 0x08, 0x0d, 0x15] ∧
    refLib.base64Decode (ofString "woiFjIyPwJePkoyEwuPj4w==") =
      some [0xC2, 0x88, 0x85, 0x8C, 0x8C, 0x8F, 0xC0, 0x97, 0x8F, 0x92, 0x8C, 0x84, 0xC2, 0xE3,
        0xE3, 0xE3] ∧
    encrypt refLib (ofString "hello world") (ofString "Secret Passphrase")
        (some [0x01, 0x01, 0x02, 0x03, 0x05, 0x08, 0x0d, 0x15]) =
      .ret (ofString
        "\x7b\"ct\":\"woiFjIyPwJePkoyEwuPj4w==\",\"iv\":\"36363636363636363636363636363636\",\"s\":\"0101020305080d15\"\x7d") ∧
    decrypt refLib (ofString
        "\x7b\"ct\":\"woiFjIyPwJePkoyEwuPj4w==\",\"iv\":\"36363636363636363636363636363636\",\"s\":\"0101020305080d15\"\x7d")
        (ofString "Secret Passphrase") = .ret (ofString "hello world") := by
  have h := derive_three_rounds refLib (ofString "Secret Passphrase")
    [0x01, 0x01, 0x02, 0x03, 0x05, 0x08, 0x0d, 0x15]
  have hj : jsonUnmarshalStringMap refLib (ofString
        "\x7b\"ct\":\"woiFjIyPwJePkoyEwuPj4w==\",\"iv\":\"36363636363636363636363636363636\",\"s\":\"0101020305080d15\"\x7d") =
      some [(ofString "s", ofString "0101020305080d15"),
        (ofString "iv", ofString "36363636363636363636363636363636"),
        (ofString "ct", ofString "woiFjIyPwJePkoyEwuPj4w==")] := by decide
  have hs : refLib.hexDecode (ofString "0101020305080d15") =
      some [0x01, 0x01, 0x02, 0x03, 0x05, 0x08, 0x0d, 0x15] := by decide
  have hc : refLib.base64Decode (ofString "woiFjIyPwJePkoyEwuPj4w==") =
      some [0xC2, 0x88, 0x85, 0x8C, 0x8C, 0x8F, 0xC0, 0x97, 0x8F, 0x92, 0x8C, 0x84, 0xC2, 0xE3,
        0xE3, 0xE3] := by decide
  refine ⟨hj, hs, hc, ?_, ?_⟩
  · rw [h.2.2.2.2.2.2.2.2.1 (ofString "hello world")]
    decide
  · rw [h.2.2.2.2.2.2.2.2.2 _ _ _ hj hs hc]
    decide

/-! ## C1: round trip -/

/-- C1 (as amended). For every password `p`, every plaintext `s` that is valid
UTF-8 (the coercion of `json.Marshal` leaves it unchanged) and every 8-byte salt
drawn by `encrypt`, `encrypt(s, p)` returns an envelope `e` and `decrypt(e, p)`
returns exactly `s`. -/
theorem roundtrip_valid_utf8 (L : Lib) (hL : L.Lawful) (p s salt : Bytes)
    (hs : toValidUTF8 s = s) (_hsalt : salt.length = 8) :
    ∃ e, encrypt L s p (some salt) = .ret e ∧ decrypt L e p = .ret s := by
  have h := decrypt_encryptWithSalt L hL s p salt (by rw [hs, hs])
  rw [hs] at h
  exact h

/-- Witness of C1: the spec's test vector in the reference instance. -/
theorem roundtrip_valid_utf8_witness :
    refLib.Lawful ∧
    toValidUTF8 (ofString "hello world") = ofString "hello world" ∧
    ([0x01, 0x01, 0x02, 0x03, 0x05, 0x08, 0x0d, 0x15] : Bytes).length = 8 ∧
    ∃ e, encrypt refLib (ofString "hello world") (ofString "Secret Passphrase")
        (some [0x01, 0x01, 0x02, 0x03, 0x05, 0x08, 0x0d, 0x15]) = .ret e ∧
      decrypt refLib e (ofString "Secret Passphrase") = .ret (ofString "hello world") :=
  ⟨refLib_lawful, by decide, by decide,
    roundtrip_valid_utf8 refLib refLib_lawful _ _ _ (by decide) (by decide)⟩

/-- Counterexample to C1 as stated. The Go string `"\xff"` is not valid UTF-8:
`json.Marshal` encodes U+FFFD in its place, so for every lawful library, every
password and every salt the round trip returns the three bytes `EF BF BD`, not
the plaintext; the reference instance shows it on one input. -/
theorem roundtrip_invalid_utf8 :
    (∀ L : Lib, L.Lawful → ∀ p salt : Bytes,
      ∃ e, encrypt L [0xFF] p (some salt) = .ret e ∧
        decrypt L e p = .ret [0xEF, 0xBF, 0xBD] ∧ decrypt L e p ≠ .ret [0xFF]) ∧
    (∃ e, encrypt refLib [0xFF] (ofString "Secret Passphrase")
        (some [0x01, 0x01, 0x02, 0x03, 0x05, 0x08, 0x0d, 0x15]) = .ret e ∧
      decrypt refLib e (ofString "Secret Passphrase") ≠ .ret [0xFF]) := by
  have key : ∀ L : Lib, L.Lawful → ∀ p salt : Bytes,
      ∃ e, encrypt L [0xFF] p (some salt) = .ret e ∧
        decrypt L e p = .ret [0xEF, 0xBF, 0xBD] ∧ decrypt L e p ≠ .ret [0xFF] := by
    intro L hL p salt
    obtain ⟨e, he, hd⟩ := decrypt_encryptWithSalt L hL [0xFF] p salt (by decide)
    have hc : toValidUTF8 [0xFF] = [0xEF, 0xBF, 0xBD] := by decide
    rw [hc] at hd
    refine ⟨e, he, hd, ?_⟩
    rw [hd]
    decide
  refine ⟨key, ?_⟩
  obtain ⟨e, he, _, hne⟩ := key refLib refLib_lawful (ofString "Secret Passphrase")
    [0x01, 0x01, 0x02, 0x03, 0x05, 0x08, 0x0d, 0x15]
  exact ⟨e, he, hne⟩

/-! ## C4: salt length -/

/-- C4 (as amended). For every password and every envelope whose `s` member
hex-decodes to a salt of any length (0 and 48 bytes included) and whose `ct`
member base64-decodes, `decrypt` does not reject the salt: it derives the
32-byte key `block0 ‖ block1` and the 16-byte IV `block2` from that salt and
its result is that of `CryptBlocks`, `pkcs7.Unpad` and `json.Unmarshal` run
with them.  When the envelope is the one `encrypt` returns under that salt for
a plaintext that is valid UTF-8, `decrypt` returns that plaintext. -/
theorem decrypt_accepts_any_salt (L : Lib) (hL : L.Lawful) (pass j : Bytes) (jd : StringMap)
    (salt ciphertext : Bytes) (hj : jsonUnmarshalStringMap L j = some jd)
    (hs : L.hexDecode (jd.get (ofString "s")) = some salt)
    (hc : L.base64Decode (jd.get (ofString "ct")) = some ciphertext) :
    (md5Block L pass salt 0 ++ md5Block L pass salt 1).length = 32 ∧
    (md5Block L pass salt 2).length = 16 ∧
    decrypt L j pass =
      (match cryptBlocks (cbcDecryptBlocks (L.aesDecrypt
          (md5Block L pass salt 0 ++ md5Block L pass salt 1)))
          (md5Block L pass salt 2) ciphertext with
      | .panic msg => .panic msg
      | .err e => .err e
      | .ret out =>
        match L.pkcs7Unpad out with
        | none => .err (.lib "pkcs7.Unpad")
        | some up =>
          match jsonUnmarshalString L up with
          | none => .err (.lib "json.Unmarshal")
          | some outString => .ret outString) ∧
    (∀ plain, toValidUTF8 plain = plain → encrypt L plain pass (some salt) = .ret j →
      decrypt L j pass = .ret plain) := by
  refine ⟨?_, md5Block_length L pass salt 2, decrypt_members L j pass jd salt ciphertext hj hs hc,
    ?_⟩
  · rw [List.length_append, md5Block_length, md5Block_length]
  · intro plain hv he
    rw [encrypt, encryptWithSalt_sealed] at he
    cases he
    exact decrypt_sealed L hL plain pass salt hv

/-- Witness of C4: the envelope the reference instance seals for `hello world`
under the empty salt; its `s` member is the empty string. -/
theorem decrypt_accepts_any_salt_witness :
    refLib.Lawful ∧
    jsonUnmarshalStringMap refLib (ofString
        "\x7b\"ct\":\"ImhlbGxvIHdvcmxkIgMDAw==\",\"iv\":\"a0a0a0a0a0a0a0a0a0a0a0a0a0a0a0a0\",\"s\":\"\"\x7d") =
      some [(ofString "s", []), (ofString "iv", ofString "a0a0a0a0a0a0a0a0a0a0a0a0a0a0a0a0"),
        (ofString "ct", ofString "ImhlbGxvIHdvcmxkIgMDAw==")] ∧
    refLib.hexDecode [] = some [] ∧
    refLib.base64Decode (ofString "ImhlbGxvIHdvcmxkIgMDAw==") =
      some (ofString "\"hello world\"\x03\x03\x03") ∧
    toValidUTF8 (ofString "hello world") = ofString "hello world" ∧
    encrypt refLib (ofString "hello world") (ofString "Secret Passphrase") (some []) =
      .ret (ofString
        "\x7b\"ct\":\"ImhlbGxvIHdvcmxkIgMDAw==\",\"iv\":\"a0a0a0a0a0a0a0a0a0a0a0a0a0a0a0a0\",\"s\":\"\"\x7d") ∧
    decrypt refLib (ofString
        "\x7b\"ct\":\"ImhlbGxvIHdvcmxkIgMDAw==\",\"iv\":\"a0a0a0a0a0a0a0a0a0a0a0a0a0a0a0a0\",\"s\":\"\"\x7d")
        (ofString "Secret Passphrase") = .ret (ofString "hello world") := by
  have hj : jsonUnmarshalStringMap refLib (ofString
        "\x7b\"ct\":\"ImhlbGxvIHdvcmxkIgMDAw==\",\"iv\":\"a0a0a0a0a0a0a0a0a0a0a0a0a0a0a0a0\",\"s\":\"\"\x7d") =
      some [(ofString "s", []), (ofString "iv", ofString "a0a0a0a0a0a0a0a0a0a0a0a0a0a0a0a0"),
        (ofString "ct", ofString "ImhlbGxvIHdvcmxkIgMDAw==")] := by decide
  have hs : refLib.hexDecode [] = some [] := by decide
  have hc : refLib.base64Decode (ofString "ImhlbGxvIHdvcmxkIgMDAw==") =
      some (ofString "\"hello world\"\x03\x03\x03") := by decide
  have hv : toValidUTF8 (ofString "hello world") = ofString "hello world" := by decide
  have he : encrypt refLib (ofString "hello world") (ofString "Secret Passphrase") (some []) =
      .ret (ofString
        "\x7b\"ct\":\"ImhlbGxvIHdvcmxkIgMDAw==\",\"iv\":\"a0a0a0a0a0a0a0a0a0a0a0a0a0a0a0a0\",\"s\":\"\"\x7d") := by
    rw [encrypt, encryptWithSalt_sealed]
    decide
  exact ⟨refLib_lawful, hj, hs, hc, hv, he,
    (decrypt_accepts_any_salt refLib refLib_lawful (ofString "Secret Passphrase") _ _ [] _
      hj hs hc).2.2.2 (ofString "hello world") hv he⟩

/-- Counterexample to C4 as stated. For every lawful library and every
password there are envelopes whose `s` member hex-decodes to a salt of 0 bytes
and of 48 bytes on which `decrypt` returns a plaintext, not an error; in the
reference instance, which is lawful, the envelope with the member `"s":""` is
one of them. -/
theorem decrypt_salt_length_unchecked :
    (∀ L : Lib, L.Lawful → ∀ pass : Bytes, ∀ salt ∈ [[], List.replicate 48 (0 : Byte)],
      salt.length ≠ 8 ∧
      ∃ ct iv, L.hexDecode (L.hexEncode salt) = some salt ∧
        decrypt L (envelope L ct iv (L.hexEncode salt)) pass = .ret (ofString "hello world")) ∧
    refLib.Lawful ∧
    jsonUnmarshalStringMap refLib (ofString
        "\x7b\"ct\":\"ImhlbGxvIHdvcmxkIgMDAw==\",\"iv\":\"a0a0a0a0a0a0a0a0a0a0a0a0a0a0a0a0\",\"s\":\"\"\x7d") =
      some [(ofString "s", []), (ofString "iv", ofString "a0a0a0a0a0a0a0a0a0a0a0a0a0a0a0a0"),
        (ofString "ct", ofString "ImhlbGxvIHdvcmxkIgMDAw==")] ∧
    refLib.hexDecode [] = some [] ∧
    decrypt refLib (ofString
        "\x7b\"ct\":\"ImhlbGxvIHdvcmxkIgMDAw==\",\"iv\":\"a0a0a0a0a0a0a0a0a0a0a0a0a0a0a0a0\",\"s\":\"\"\x7d")
        (ofString "Secret Passphrase") = .ret (ofString "hello world") := by
  have hseal : sealedEnvelope refLib (ofString "hello world") (ofString "Secret Passphrase") [] =
      ofString
        "\x7b\"ct\":\"ImhlbGxvIHdvcmxkIgMDAw==\",\"iv\":\"a0a0a0a0a0a0a0a0a0a0a0a0a0a0a0a0\",\"s\":\"\"\x7d" := by
    decide
  refine ⟨?_, refLib_lawful, by decide, by decide, ?_⟩
  · intro L hL pass salt hsalt
    refine ⟨?_, _, _, hL.hex_decode_encode salt,
      decrypt_sealed L hL (ofString "hello world") pass salt (by decide)⟩
    simp only [List.mem_cons, List.mem_singleton, List.not_mem_nil, or_false] at hsalt
    rcases hsalt with rfl | rfl <;> simp
  · rw [← hseal]
    exact decrypt_sealed refLib refLib_lawful (ofString "hello world")
      (ofString "Secret Passphrase") [] (by decide)

/-! ## C5: a ciphertext that is not a whole number of blocks -/

theorem decrypt_eq_decryptFields (L : Lib) (j pass : Bytes) :
    decrypt L j pass =
      match jsonUnmarshalStringMap L j with
      | none => .err (.lib "json.Unmarshal")
      | some jd => decryptFields L pass (jd.get (ofString "s")) (jd.get (ofString "ct")) := by
  rfl

/-- C5 (what the code does at the failing input). When the `ct` member
base64-decodes to a byte sequence whose length is not a multiple of 16,
`decrypt` does not return an error value: `CryptBlocks` panics. -/
theorem decrypt_panics_on_partial_block (L : Lib) (j pass : Bytes) (jd : StringMap)
    (salt ct : Bytes) (hj : jsonUnmarshalStringMap L j = some jd)
    (hs : L.hexDecode (jd.get (ofString "s")) = some salt)
    (hc : L.base64Decode (jd.get (ofString "ct")) = some ct)
    (hlen : ct.length % 16 ≠ 0) :
    decrypt L j pass = .panic "crypto/cipher: input not full blocks" := by
  rw [decrypt_eq_decryptFields, hj]
  simp only [decryptFields, hs, hc, decryptDerive_eq, aesNewCipher_key, cryptBlocks, iv_length,
    ne_eq, not_true_eq_false, ↓reduceIte, hlen, not_false_eq_true]

/-- Witness of C5: the envelope `{"ct":"AAAA","iv":"BBBB","s":"CCCC"}` read by
the reference instance; its `ct` member decodes to 3 bytes and its `s` member
to 2 bytes. -/
theorem decrypt_panics_on_partial_block_witness :
    jsonUnmarshalStringMap refLib
        (ofString "\x7b\"ct\":\"AAAA\",\"iv\":\"BBBB\",\"s\":\"CCCC\"\x7d") =
      some [(ofString "s", ofString "CCCC"), (ofString "iv", ofString "BBBB"),
        (ofString "ct", ofString "AAAA")] ∧
    refLib.hexDecode (ofString "CCCC") = some [0xCC, 0xCC] ∧
    refLib.base64Decode (ofString "AAAA") = some [0, 0, 0] ∧
    ([0, 0, 0] : Bytes).length % 16 ≠ 0 ∧
    decrypt refLib (ofString "\x7b\"ct\":\"AAAA\",\"iv\":\"BBBB\",\"s\":\"CCCC\"\x7d")
      (ofString "Secret Passphrase") = .panic "crypto/cipher: input not full blocks" :=
  ⟨by decide, by decide, by decide, by decide,
    decrypt_panics_on_partial_block refLib _ _
      [(ofString "s", ofString "CCCC"), (ofString "iv", ofString "BBBB"),
        (ofString "ct", ofString "AAAA")]
      [0xCC, 0xCC] [0, 0, 0] (by decide) (by decide) (by decide) (by decide)⟩

/-! ## C3: the `iv` member -/

theorem get_filter_notIv : ∀ (m : StringMap) (k : Bytes), k ≠ ofString "iv" →
    StringMap.get (m.filter notIv) k = StringMap.get m k
  | [], _, _ => rfl
  | (k', v) :: m, k, hk => by
    have ih := get_filter_notIv m k hk
    simp only [StringMap.get] at ih ⊢
    by_cases hiv : k' = ofString "iv"
    · subst hiv
      have hkk : (k == ofString "iv") = false := beq_false_of_ne hk
      simp only [List.filter, notIv, bne_self_eq_false, List.lookup, hkk]
      exact ih
    · have hn : notIv (k', v) = true := by
        simp [notIv, hiv]
      simp only [List.filter, hn, List.lookup]
      cases k == k' <;> simp [ih]

theorem decodeStringFields_filter : ∀ (fields : List (Bytes × Json)) (m : StringMap),
    (∀ kv ∈ fields, kv.1 = ofString "iv" → kv.2 = .null ∨ ∃ s, kv.2 = .str s) →
    (decodeStringFields fields m).map (fun m' => m'.filter notIv) =
      decodeStringFields (fields.filter notIv) (m.filter notIv)
  | [], m, _ => rfl
  | (k, v) :: fields, m, h => by
    have ih := fun m' => decodeStringFields_filter fields m'
      (fun kv hkv => h kv (List.mem_cons_of_mem _ hkv))
    by_cases hiv : k = ofString "iv"
    · have hf : notIv (k, v) = false := by simp [notIv, hiv]
      have hm : ∀ s, List.filter notIv (StringMap.set m k s) = List.filter notIv m := by
        intro s
        simp [StringMap.set, List.filter, notIv, hiv]
      simp only [List.filter, hf]
      rcases h (k, v) (List.mem_cons_self _ _) hiv with hv | ⟨s, hv⟩
      · simp only at hv
        simp only [decodeStringFields, hv, decodeString]
        rw [ih, hm]
      · simp only at hv
        simp only [decodeStringFields, hv, decodeString]
        rw [ih, hm]
    · have hf : notIv (k, v) = true := by simp [notIv, hiv]
      have hm : ∀ s, List.filter notIv (StringMap.set m k s) =
          StringMap.set (List.filter notIv m) k s := by
        intro s
        have hb : notIv (k, s) = true := by simp [notIv, hiv]
        simp only [StringMap.set, List.filter, hb]
      simp only [List.filter, hf, decodeStringFields]
      cases hd : decodeString [] v with
      | none => rfl
      | some s => simp only [ih, hm]

theorem decodeStringFields_none : ∀ (fields : List (Bytes × Json)) (m : StringMap) (k : Bytes)
    (v : Json), (k, v) ∈ fields → decodeString [] v = none → decodeStringFields fields m = none
  | [], _, _, _, h, _ => by simp at h
  | (k', v') :: fields, m, k, v, h, hv => by
    rcases List.mem_cons.mp h with heq | hmem
    · cases heq
      simp [decodeStringFields, hv]
    · simp only [decodeStringFields]
      cases decodeString [] v' with
      | none => rfl
      | some s => exact decodeStringFields_none fields _ k v hmem hv

/-- C3 (as amended). For every password and any two envelopes (JSON objects)
that differ only in the `iv` member, where that member is absent or holds a
JSON string or `null`, `decrypt` returns the same result: the same string, the
same error or the same panic. -/
theorem decrypt_ignores_iv (L : Lib) (j1 j2 pass : Bytes) (f1 f2 : List (Bytes × Json))
    (h1 : L.jsonParse j1 = some (.obj f1)) (h2 : L.jsonParse j2 = some (.obj f2))
    (hsame : f1.filter notIv = f2.filter notIv)
    (hiv1 : ∀ kv ∈ f1, kv.1 = ofString "iv" → kv.2 = .null ∨ ∃ s, kv.2 = .str s)
    (hiv2 : ∀ kv ∈ f2, kv.1 = ofString "iv" → kv.2 = .null ∨ ∃ s, kv.2 = .str s) :
    decrypt L j1 pass = decrypt L j2 pass := by
  have e1 := decodeStringFields_filter f1 [] hiv1
  have e2 := decodeStringFields_filter f2 [] hiv2
  rw [hsame, ← e2] at e1
  have hs : ofString "s" ≠ ofString "iv" := by decide
  have hc : ofString "ct" ≠ ofString "iv" := by decide
  simp only [decrypt_eq_decryptFields, jsonUnmarshalStringMap, h1, h2]
  cases r1 : decodeStringFields f1 [] with
  | none =>
    cases r2 : decodeStringFields f2 [] with
    | none => rfl
    | some m2 => rw [r1, r2] at e1; simp at e1
  | some m1 =>
    cases r2 : decodeStringFields f2 [] with
    | none => rw [r1, r2] at e1; simp at e1
    | some m2 =>
      rw [r1, r2] at e1
      simp only [Option.map_some', Option.some.injEq] at e1
      simp only
      rw [← get_filter_notIv m1 _ hs, ← get_filter_notIv m1 _ hc, e1, get_filter_notIv m2 _ hs,
        get_filter_notIv m2 _ hc]

/-- Witness of C3: the envelope the reference instance seals for the plaintext
`hello world`, and the same envelope without its `iv` member; both decrypt to
the plaintext. -/
theorem decrypt_ignores_iv_witness :
    refLib.jsonParse (ofString
        "\x7b\"ct\":\"woiFjIyPwJePkoyEwuPj4w==\",\"iv\":\"36363636363636363636363636363636\",\"s\":\"0101020305080d15\"\x7d") =
      some (.obj [(ofString "ct", .str (ofString "woiFjIyPwJePkoyEwuPj4w==")),
        (ofString "iv", .str (ofString "36363636363636363636363636363636")),
        (ofString "s", .str (ofString "0101020305080d15"))]) ∧
    refLib.jsonParse (ofString
        "\x7b\"ct\":\"woiFjIyPwJePkoyEwuPj4w==\",\"s\":\"0101020305080d15\"\x7d") =
      some (.obj [(ofString "ct", .str (ofString "woiFjIyPwJePkoyEwuPj4w==")),
        (ofString "s", .str (ofString "0101020305080d15"))]) ∧
    decrypt refLib (ofString
        "\x7b\"ct\":\"woiFjIyPwJePkoyEwuPj4w==\",\"iv\":\"36363636363636363636363636363636\",\"s\":\"0101020305080d15\"\x7d")
        (ofString "Secret Passphrase") =
      decrypt refLib (ofString
        "\x7b\"ct\":\"woiFjIyPwJePkoyEwuPj4w==\",\"s\":\"0101020305080d15\"\x7d")
        (ofString "Secret Passphrase") ∧
    decrypt refLib (ofString
        "\x7b\"ct\":\"woiFjIyPwJePkoyEwuPj4w==\",\"iv\":\"36363636363636363636363636363636\",\"s\":\"0101020305080d15\"\x7d")
        (ofString "Secret Passphrase") = .ret (ofString "hello world") := by
  have p1 : refLib.jsonParse (ofString
        "\x7b\"ct\":\"woiFjIyPwJePkoyEwuPj4w==\",\"iv\":\"36363636363636363636363636363636\",\"s\":\"0101020305080d15\"\x7d") =
      some (.obj [(ofString "ct", .str (ofString "woiFjIyPwJePkoyEwuPj4w==")),
        (ofString "iv", .str (ofString "36363636363636363636363636363636")),
        (ofString "s", .str (ofString "0101020305080d15"))]) := rfl
  have p2 : refLib.jsonParse (ofString
        "\x7b\"ct\":\"woiFjIyPwJePkoyEwuPj4w==\",\"s\":\"0101020305080d15\"\x7d") =
      some (.obj [(ofString "ct", .str (ofString "woiFjIyPwJePkoyEwuPj4w==")),
        (ofString "s", .str (ofString "0101020305080d15"))]) := rfl
  have hseal : sealedEnvelope refLib (ofString "hello world") (ofString "Secret Passphrase")
      [0x01, 0x01, 0x02, 0x03, 0x05, 0x08, 0x0d, 0x15] = ofString
        "\x7b\"ct\":\"woiFjIyPwJePkoyEwuPj4w==\",\"iv\":\"36363636363636363636363636363636\",\"s\":\"0101020305080d15\"\x7d" := by
    decide
  refine ⟨p1, p2, decrypt_ignores_iv refLib _ _ _ _ _ p1 p2 rfl ?_ ?_, ?_⟩
  · intro kv hkv _
    simp only [List.mem_cons, List.mem_singleton, List.not_mem_nil, or_false] at hkv
    rcases hkv with rfl | rfl | rfl <;> exact Or.inr ⟨_, rfl⟩
  · intro kv hkv _
    simp only [List.mem_cons, List.mem_singleton, List.not_mem_nil, or_false] at hkv
    rcases hkv with rfl | rfl <;> exact Or.inr ⟨_, rfl⟩
  · rw [← hseal]
    exact decrypt_sealed refLib refLib_lawful (ofString "hello world")
      (ofString "Secret Passphrase") [0x01, 0x01, 0x02, 0x03, 0x05, 0x08, 0x0d, 0x15] (by decide)

/-- Counterexample to C3 as stated. The envelope is read into a
`map[string]string`, so a value of the `iv` member that is not a string makes
`json.Unmarshal` fail: for every library, an envelope whose `iv` member is a
number is rejected, whatever its `ct` and `s`.  In the reference instance two
envelopes that differ only in the `iv` member (a string in one, the number `1`
in the other) give a plaintext and an error. -/
theorem decrypt_rejects_number_iv :
    (∀ (L : Lib) (j pass : Bytes) (f : List (Bytes × Json)) (lit : Bytes),
      L.jsonParse j = some (.obj f) → (ofString "iv", Json.num lit) ∈ f →
      decrypt L j pass = .err (.lib "json.Unmarshal")) ∧
    refLib.jsonParse (ofString
        "\x7b\"ct\":\"woiFjIyPwJePkoyEwuPj4w==\",\"iv\":\"36363636363636363636363636363636\",\"s\":\"0101020305080d15\"\x7d") =
      some (.obj [(ofString "ct", .str (ofString "woiFjIyPwJePkoyEwuPj4w==")),
        (ofString "iv", .str (ofString "36363636363636363636363636363636")),
        (ofString "s", .str (ofString "0101020305080d15"))]) ∧
    refLib.jsonParse (ofString
        "\x7b\"ct\":\"woiFjIyPwJePkoyEwuPj4w==\",\"iv\":1,\"s\":\"0101020305080d15\"\x7d") =
      some (.obj [(ofString "ct", .str (ofString "woiFjIyPwJePkoyEwuPj4w==")),
        (ofString "iv", .num (ofString "1")),
        (ofString "s", .str (ofString "0101020305080d15"))]) ∧
    decrypt refLib (ofString
        "\x7b\"ct\":\"woiFjIyPwJePkoyEwuPj4w==\",\"iv\":\"36363636363636363636363636363636\",\"s\":\"0101020305080d15\"\x7d")
        (ofString "Secret Passphrase") = .ret (ofString "hello world") ∧
    decrypt refLib (ofString
        "\x7b\"ct\":\"woiFjIyPwJePkoyEwuPj4w==\",\"iv\":1,\"s\":\"0101020305080d15\"\x7d")
        (ofString "Secret Passphrase") = .err (.lib "json.Unmarshal") := by
  have gen : ∀ (L : Lib) (j pass : Bytes) (f : List (Bytes × Json)) (lit : Bytes),
      L.jsonParse j = some (.obj f) → (ofString "iv", Json.num lit) ∈ f →
      decrypt L j pass = .err (.lib "json.Unmarshal") := by
    intro L j pass f lit hj hmem
    simp only [decrypt_eq_decryptFields, jsonUnmarshalStringMap, hj,
      decodeStringFields_none f [] _ _ hmem rfl]
  have p2 : refLib.jsonParse (ofString
        "\x7b\"ct\":\"woiFjIyPwJePkoyEwuPj4w==\",\"iv\":1,\"s\":\"0101020305080d15\"\x7d") =
      some (.obj [(ofString "ct", .str (ofString "woiFjIyPwJePkoyEwuPj4w==")),
        (ofString "iv", .num (ofString "1")),
        (ofString "s", .str (ofString "0101020305080d15"))]) := rfl
  have hseal : sealedEnvelope refLib (ofString "hello world") (ofString "Secret Passphrase")
      [0x01, 0x01, 0x02, 0x03, 0x05, 0x08, 0x0d, 0x15] = ofString
        "\x7b\"ct\":\"woiFjIyPwJePkoyEwuPj4w==\",\"iv\":\"36363636363636363636363636363636\",\"s\":\"0101020305080d15\"\x7d" := by
    decide
  refine ⟨gen, rfl, p2, ?_, gen refLib _ _ _ (ofString "1") p2 (by simp)⟩
  rw [← hseal]
  exact decrypt_sealed refLib refLib_lawful (ofString "hello world")
    (ofString "Secret Passphrase") [0x01, 0x01, 0x02, 0x03, 0x05, 0x08, 0x0d, 0x15] (by decide)

/-! ## C7: extraction of the assignments -/

theorem splitN2_assignment (k v : Bytes) (hk : (0x3D : Byte) ∉ k) :
    splitN2 (k ++ 0x3D :: v) 0x3D = [k, v] := by
  have hall : ∀ b ∈ k, (fun b : Byte => b != 0x3D) b = true := by
    intro b hb
    have : b ≠ 0x3D := fun e => hk (e ▸ hb)
    simpa using this
  have hd : (k ++ 0x3D :: v).dropWhile (fun b : Byte => b != 0x3D) = 0x3D :: v := by
    rw [List.dropWhile_append_of_pos hall, List.dropWhile_cons]
    simp
  have ht : (k ++ 0x3D :: v).takeWhile (fun b : Byte => b != 0x3D) = k := by
    rw [List.takeWhile_append_of_pos hall, List.takeWhile_cons]
    simp
  simp only [splitN2, hd, ht]

theorem extractStep_assignment (out : StringMap) (k v : Bytes) (hk : (0x3D : Byte) ∉ k) :
    extractStep out (k ++ 0x3D :: v) =
      out.set (trimSpace k) (trimByte (trimSpace v) 0x60) := by
  simp only [extractStep, splitN2_assignment k v hk]

theorem split_assignmentsLine : ∀ (asg : List (Bytes × Bytes)),
    (∀ a ∈ asg, (0x3B : Byte) ∉ a.1 ∧ (0x3B : Byte) ∉ a.2) →
    split (assignmentsLine asg) 0x3B = asg.map (fun a => a.1 ++ 0x3D :: a.2) ++ [[]]
  | [], _ => by simp [split, assignmentsLine, List.splitOn, List.splitOnP_nil]
  | a :: asg, h => by
    have ih := split_assignmentsLine asg (fun x hx => h x (List.mem_cons_of_mem _ hx))
    obtain ⟨h1, h2⟩ := h a (List.mem_cons_self _ _)
    have hno : ∀ x ∈ a.1 ++ 0x3D :: a.2, ¬ ((fun b : Byte => b == 0x3B) x = true) := by
      intro x hx
      simp only [List.mem_append, List.mem_cons] at hx
      simp only [beq_iff_eq]
      rcases hx with hx | hx | hx
      · exact fun e => h1 (e ▸ hx)
      · rw [hx]; decide
      · exact fun e => h2 (e ▸ hx)
    have hfirst := List.splitOnP_first (fun b : Byte => b == 0x3B) (a.1 ++ 0x3D :: a.2) hno 0x3B
      (by simp) (assignmentsLine asg)
    simp only [split, List.splitOn] at ih ⊢
    have hline : assignmentsLine (a :: asg) =
        (a.1 ++ 0x3D :: a.2) ++ 0x3B :: assignmentsLine asg := by
      simp [assignmentsLine]
    rw [hline, hfirst, ih]
    rfl

theorem foldl_extractStep : ∀ (asg : List (Bytes × Bytes)) (out : StringMap),
    (∀ a ∈ asg, (0x3D : Byte) ∉ a.1) →
    (asg.map (fun a => a.1 ++ 0x3D :: a.2)).foldl extractStep out =
      (asg.map (fun a => (trimSpace a.1, trimByte (trimSpace a.2) 0x60))).reverse ++ out
  | [], _, _ => rfl
  | a :: asg, out, h => by
    have ih := foldl_extractStep asg (out.set (trimSpace a.1) (trimByte (trimSpace a.2) 0x60))
      (fun x hx => h x (List.mem_cons_of_mem _ hx))
    simp only [StringMap.set] at ih
    simp only [List.map_cons, List.foldl_cons,
      extractStep_assignment out a.1 a.2 (h a (List.mem_cons_self _ _)), StringMap.set, ih,
      List.reverse_cons, List.append_assoc, List.singleton_append]

theorem lookup_eq_find (key : Bytes) : ∀ (l : StringMap),
    l.lookup key = (l.find? (fun p => key == p.1)).map (fun p => p.2)
  | [] => rfl
  | (k, v) :: l => by
    have ih := lookup_eq_find key l
    simp only [List.lookup, List.find?]
    cases key == k <;> simp [ih]

theorem extractTokens_eq (asg : List (Bytes × Bytes))
    (hwf : ∀ a ∈ asg, (0x3D : Byte) ∉ a.1 ∧ (0x3B : Byte) ∉ a.1 ∧ (0x3B : Byte) ∉ a.2) :
    extractTokens (assignmentsLine asg) =
      .ret (asg.map (fun a => (trimSpace a.1, trimByte (trimSpace a.2) 0x60))).reverse := by
  have hs := split_assignmentsLine asg (fun a ha => ⟨(hwf a ha).2.1, (hwf a ha).2.2⟩)
  have hf := foldl_extractStep asg [] (fun a ha => (hwf a ha).1)
  have hlast : ∀ out, extractStep out [] = out := fun _ => rfl
  simp only [extractTokens, hs, List.foldl_append, hf, List.append_nil, List.foldl_cons,
    List.foldl_nil, hlast]

theorem find_unrelated (key : Bytes) : ∀ (l : List (Bytes × Bytes)),
    (∀ a ∈ l, trimSpace a.1 ≠ key) → l.find? (fun a => key == trimSpace a.1) = none
  | [], _ => rfl
  | a :: l, h => by
    have ha : (key == trimSpace a.1) = false :=
      beq_false_of_ne (fun e => h a (List.mem_cons_self _ _) e.symm)
    simp only [List.find?, ha]
    exact find_unrelated key l (fun x hx => h x (List.mem_cons_of_mem _ hx))

/-- C7. For every line made of `;`-terminated assignments `name=value` in which
no name holds `=` or `;` and no value holds `;`, `extractTokens` returns a map
that sends each whitespace-trimmed name to its whitespace-trimmed value with the
surrounding backticks removed, the last assignment winning for a repeated name.
When the line holds the two assignments of the spec's example, with any other
assignments of other names before, between and after them, the map sends
`window._mtoken` to `abc123` and `window.ksu` to exactly
`{"ct":"AAAA","iv":"BBBB","s":"CCCC"}`. -/
theorem extractTokens_assignments (asg : List (Bytes × Bytes))
    (hwf : ∀ a ∈ asg, (0x3D : Byte) ∉ a.1 ∧ (0x3B : Byte) ∉ a.1 ∧ (0x3B : Byte) ∉ a.2) :
    ∃ m, extractTokens (assignmentsLine asg) = .ret m ∧
      (∀ key, m.get? key =
        (asg.reverse.find? (fun a => key == trimSpace a.1)).map
          (fun a => trimByte (trimSpace a.2) 0x60)) ∧
      (∀ pre mid post, asg = pre ++ mtokenAssignment :: mid ++ ksuAssignment :: post →
        (∀ a ∈ pre ++ mid ++ post, trimSpace a.1 ≠ ofString "window._mtoken" ∧
          trimSpace a.1 ≠ ofString "window.ksu") →
        m.get? (ofString "window._mtoken") = some (ofString "abc123") ∧
        m.get? (ofString "window.ksu") =
          some (ofString "\x7b\"ct\":\"AAAA\",\"iv\":\"BBBB\",\"s\":\"CCCC\"\x7d")) := by
  have hget : ∀ key, StringMap.get?
      (asg.map (fun a => (trimSpace a.1, trimByte (trimSpace a.2) 0x60))).reverse key =
      (asg.reverse.find? (fun a => key == trimSpace a.1)).map
        (fun a => trimByte (trimSpace a.2) 0x60) := by
    intro key
    rw [StringMap.get?, lookup_eq_find, ← List.map_reverse, List.find?_map, Option.map_map]
    rfl
  refine ⟨_, extractTokens_eq asg hwf, hget, ?_⟩
  intro pre mid post hasg hun
  have hpre : ∀ key, key = ofString "window._mtoken" ∨ key = ofString "window.ksu" →
      ∀ l : List (Bytes × Bytes), (∀ a ∈ l, a ∈ pre ++ mid ++ post) →
      l.reverse.find? (fun a => key == trimSpace a.1) = none := by
    intro key hkey l hl
    apply find_unrelated
    intro a ha
    have := hun a (hl a (List.mem_reverse.mp ha))
    rcases hkey with rfl | rfl
    · exact this.1
    · exact this.2
  have hp2 : ∀ key, key = ofString "window._mtoken" ∨ key = ofString "window.ksu" →
      mid.reverse.find? (fun a => key == trimSpace a.1) = none :=
    fun key hkey => hpre key hkey mid (fun a ha => by simp [ha])
  have hp3 : ∀ key, key = ofString "window._mtoken" ∨ key = ofString "window.ksu" →
      post.reverse.find? (fun a => key == trimSpace a.1) = none :=
    fun key hkey => hpre key hkey post (fun a ha => by simp [ha])
  have hrev : asg.reverse =
      post.reverse ++ ksuAssignment :: (mid.reverse ++ mtokenAssignment :: pre.reverse) := by
    rw [hasg]
    simp
  constructor
  · rw [hget, hrev, List.find?_append, hp3 _ (Or.inl rfl)]
    have hk : (ofString "window._mtoken" == trimSpace ksuAssignment.1) = false := by decide
    have hm : (ofString "window._mtoken" == trimSpace mtokenAssignment.1) = true := by decide
    have hv : trimByte (trimSpace mtokenAssignment.2) 0x60 = ofString "abc123" := by decide
    simp only [Option.none_or, List.find?, hk, List.find?_append, hp2 _ (Or.inl rfl), hm,
      Option.map_some', hv]
  · rw [hget, hrev, List.find?_append, hp3 _ (Or.inr rfl)]
    have hk : (ofString "window.ksu" == trimSpace ksuAssignment.1) = true := by decide
    have hv : trimByte (trimSpace ksuAssignment.2) 0x60 =
        ofString "\x7b\"ct\":\"AAAA\",\"iv\":\"BBBB\",\"s\":\"CCCC\"\x7d" := by decide
    simp only [Option.none_or, List.find?, hk, Option.map_some', hv]

/-- Witness of C7: the line of the spec's example. -/
theorem extractTokens_assignments_witness :
    assignmentsLine [mtokenAssignment, ksuAssignment] = ofString
      "window._mtoken = `abc123`;window.ksu = \x7b\"ct\":\"AAAA\",\"iv\":\"BBBB\",\"s\":\"CCCC\"\x7d;" ∧
    (∀ a ∈ [mtokenAssignment, ksuAssignment],
      (0x3D : Byte) ∉ a.1 ∧ (0x3B : Byte) ∉ a.1 ∧ (0x3B : Byte) ∉ a.2) ∧
    ∃ m, extractTokens (ofString
      "window._mtoken = `abc123`;window.ksu = \x7b\"ct\":\"AAAA\",\"iv\":\"BBBB\",\"s\":\"CCCC\"\x7d;")
        = .ret m ∧
      m.get? (ofString "window._mtoken") = some (ofString "abc123") ∧
      m.get? (ofString "window.ksu") =
        some (ofString "\x7b\"ct\":\"AAAA\",\"iv\":\"BBBB\",\"s\":\"CCCC\"\x7d") := by
  have hline : assignmentsLine [mtokenAssignment, ksuAssignment] = ofString
      "window._mtoken = `abc123`;window.ksu = \x7b\"ct\":\"AAAA\",\"iv\":\"BBBB\",\"s\":\"CCCC\"\x7d;" := by
    decide
  obtain ⟨m, hm, _, hex⟩ := extractTokens_assignments [mtokenAssignment, ksuAssignment]
    (by decide)
  rw [hline] at hm
  exact ⟨hline, by decide, m, hm, hex [] [] [] rfl (by simp)⟩

/-! ## C8: a document without the token line -/

theorem hasPrefix_of_trimmed (line : Bytes)
    (hp : hasPrefix line csrfLinePrefix = true)
    (hk : hasPrefix (trimSuffix (trimPrefix line csrfLinePrefix) csrfLineSuffix)
      cryptoKeyVarName = true) :
    hasPrefix line (csrfLinePrefix ++ cryptoKeyVarName) = true := by
  simp only [hasPrefix, List.isPrefixOf_iff_prefix] at hp hk ⊢
  obtain ⟨r, hr⟩ := hp
  have hdrop : trimPrefix line csrfLinePrefix = r := by
    simp only [trimPrefix, hasPrefix, ← hr, List.isPrefixOf_iff_prefix,
      List.prefix_append, ↓reduceIte, List.drop_left]
  rw [hdrop] at hk
  have hpre : trimSuffix r csrfLineSuffix <+: r := by
    unfold trimSuffix
    split
    · exact List.take_prefix _ _
    · exact List.prefix_refl _
  obtain ⟨t, ht⟩ := hk.trans hpre
  exact ⟨t, by rw [← hr, ← ht, List.append_assoc]⟩

theorem scanTokens_no_match : ∀ (lines : List Bytes),
    (∀ text ∈ lines,
      hasPrefix (trimSpace text) (csrfLinePrefix ++ cryptoKeyVarName) = false) →
    scanTokens lines = .ret ([], true)
  | [], _ => rfl
  | text :: rest, h => by
    have ih := scanTokens_no_match rest (fun t ht => h t (List.mem_cons_of_mem _ ht))
    have hno := h text (List.mem_cons_self _ _)
    simp only [scanTokens]
    by_cases hp : hasPrefix (trimSpace text) csrfLinePrefix = true
    · have hk : hasPrefix (trimSuffix (trimPrefix (trimSpace text) csrfLinePrefix)
          csrfLineSuffix) cryptoKeyVarName = false := by
        cases hc : hasPrefix (trimSuffix (trimPrefix (trimSpace text) csrfLinePrefix)
          csrfLineSuffix) cryptoKeyVarName with
        | false => rfl
        | true => rw [hasPrefix_of_trimmed _ hp hc] at hno; cases hno
      simp only [hp, ↓reduceIte, hk, Bool.not_false, ih]
    · simp only [hp, Bool.false_eq_true, ↓reduceIte, ih]

/-- C8. For every document in which no line, after trimming, starts with
`<script>` followed by `window._mtoken`, `initializeState` ends with an error
value (it neither succeeds nor panics) and leaves `cryptoToken` and `csrfToken`
as they were, whatever the scanner reports at the end of the document. -/
theorem initializeState_no_token_line (L : Lib) (c : MagmaClient) (doc : Document)
    (hno : ∀ text ∈ doc.lines,
      hasPrefix (trimSpace text) (csrfLinePrefix ++ cryptoKeyVarName) = false) :
    ∃ e, c.initializeState L (.ret doc) = (c, .err e) := by
  simp only [MagmaClient.initializeState, scanTokens_no_match doc.lines hno, ↓reduceIte]
  cases doc.scanErr with
  | some e => exact ⟨_, rfl⟩
  | none => exact ⟨_, rfl⟩

/-- Witness of C8: a document of three lines, one of them a script line
without the token. -/
theorem initializeState_no_token_line_witness :
    (∀ text ∈ [ofString "<html>", ofString "  <script>var a = 1;</script>",
        ofString "</html>"],
      hasPrefix (trimSpace text) (csrfLinePrefix ++ cryptoKeyVarName) = false) ∧
    ∃ e, MagmaClient.initializeState refLib ⟨ofString "csrf", ofString "seed"⟩
        (.ret ⟨[ofString "<html>", ofString "  <script>var a = 1;</script>",
          ofString "</html>"], none⟩) =
      (⟨ofString "csrf", ofString "seed"⟩, .err e) :=
  ⟨by decide, initializeState_no_token_line refLib _ ⟨_, none⟩ (by decide)⟩

/-! ## C9: a token document without a token -/

theorem decodeTokenFields_empty (L : Lib) : ∀ (fields : List (Bytes × Json)),
    (∀ kv ∈ fields, L.jsonFieldMatch kv.1 (ofString "_token") = true →
      kv.2 = .str [] ∨ kv.2 = .null) →
    decodeTokenFields L fields [] = some []
  | [], _ => rfl
  | (k, v) :: fields, h => by
    have ih := decodeTokenFields_empty L fields (fun kv hkv => h kv (List.mem_cons_of_mem _ hkv))
    simp only [decodeTokenFields]
    cases hm : L.jsonFieldMatch k (ofString "_token") with
    | false => simpa using ih
    | true =>
      rcases h (k, v) (List.mem_cons_self _ _) hm with hv | hv <;>
        simp only at hv <;> simp [hv, decodeString, ih]

/-- C9 (what the code does at the failing input). When the blob decrypts to
base64-encoded JSON that is an object in which every member taken for the
`_token` field is the empty string or `null` (in particular when there is no
such member), `extractCsrfToken` returns the empty token with a nil error, and
`initializeState` stores it in `csrfToken` and returns nil. -/
theorem initializeState_stores_empty_token (L : Lib) (c : MagmaClient) (doc : Document)
    (tokens : StringMap) (seed blob b64 decoded : Bytes) (fields : List (Bytes × Json))
    (hscan : scanTokens doc.lines = .ret (tokens, false))
    (hseed : tokens.get? cryptoKeyVarName = some seed)
    (hblob : tokens.get? csrfBlobVarName = some blob)
    (hdec : decrypt L blob (keyTemplate ++ seed) = .ret b64)
    (hb64 : L.base64Decode b64 = some decoded)
    (hjson : L.jsonParse decoded = some (.obj fields))
    (hmiss : ∀ kv ∈ fields, L.jsonFieldMatch kv.1 (ofString "_token") = true →
      kv.2 = .str [] ∨ kv.2 = .null) :
    MagmaClient.extractCsrfToken L ⟨c.csrfToken, seed⟩ blob = .ret [] ∧
    c.initializeState L (.ret doc) = (⟨[], seed⟩, .ret ()) := by
  have hx : MagmaClient.extractCsrfToken L ⟨c.csrfToken, seed⟩ blob = .ret [] := by
    simp only [MagmaClient.extractCsrfToken, MagmaClient.cryptoKey, hdec, hb64,
      jsonUnmarshalToken, hjson, decodeTokenFields_empty L fields hmiss]
  refine ⟨hx, ?_⟩
  simp only [MagmaClient.initializeState, hscan, Bool.false_eq_true, ↓reduceIte, hseed, hblob, hx]

set_option maxRecDepth 1000000 in
/-- Witness of C9: in the reference instance, a document whose script line
carries the seed `abc123` and an envelope that decrypts to `e30=`, the base64
text of the JSON object without members. -/
theorem initializeState_stores_empty_token_witness :
    scanTokens [ofString
        "<script>window._mtoken = `abc123`;window.ksu = \x7b\"ct\":\"UhVDQE1Senp6enp6enp6eg==\",\"iv\":\"1b1b1b1b1b1b1b1b1b1b1b1b1b1b1b1b\",\"s\":\"0101020305080d15\"\x7d;</script>"] =
      .ret ([(ofString "window.ksu", ofString
          "\x7b\"ct\":\"UhVDQE1Senp6enp6enp6eg==\",\"iv\":\"1b1b1b1b1b1b1b1b1b1b1b1b1b1b1b1b\",\"s\":\"0101020305080d15\"\x7d"),
        (ofString "window._mtoken", ofString "abc123")], false) ∧
    decrypt refLib (ofString
        "\x7b\"ct\":\"UhVDQE1Senp6enp6enp6eg==\",\"iv\":\"1b1b1b1b1b1b1b1b1b1b1b1b1b1b1b1b\",\"s\":\"0101020305080d15\"\x7d")
        (keyTemplate ++ ofString "abc123") = .ret (ofString "e30=") ∧
    refLib.base64Decode (ofString "e30=") = some (ofString "\x7b\x7d") ∧
    refLib.jsonParse (ofString "\x7b\x7d") = some (.obj []) ∧
    MagmaClient.initializeState refLib ⟨ofString "old", ofString "old"⟩
      (.ret ⟨[ofString
        "<script>window._mtoken = `abc123`;window.ksu = \x7b\"ct\":\"UhVDQE1Senp6enp6enp6eg==\",\"iv\":\"1b1b1b1b1b1b1b1b1b1b1b1b1b1b1b1b\",\"s\":\"0101020305080d15\"\x7d;</script>"], none⟩) =
      (⟨[], ofString "abc123"⟩, .ret ()) := by
  have hscan : scanTokens [ofString
        "<script>window._mtoken = `abc123`;window.ksu = \x7b\"ct\":\"UhVDQE1Senp6enp6enp6eg==\",\"iv\":\"1b1b1b1b1b1b1b1b1b1b1b1b1b1b1b1b\",\"s\":\"0101020305080d15\"\x7d;</script>"] =
      .ret ([(ofString "window.ksu", ofString
          "\x7b\"ct\":\"UhVDQE1Senp6enp6enp6eg==\",\"iv\":\"1b1b1b1b1b1b1b1b1b1b1b1b1b1b1b1b\",\"s\":\"0101020305080d15\"\x7d"),
        (ofString "window._mtoken", ofString "abc123")], false) := by
    decide
  have hseal : sealedEnvelope refLib (ofString "e30=") (keyTemplate ++ ofString "abc123")
      [0x01, 0x01, 0x02, 0x03, 0x05, 0x08, 0x0d, 0x15] = ofString
        "\x7b\"ct\":\"UhVDQE1Senp6enp6enp6eg==\",\"iv\":\"1b1b1b1b1b1b1b1b1b1b1b1b1b1b1b1b\",\"s\":\"0101020305080d15\"\x7d" := by
    decide
  have hdec := decrypt_sealed refLib refLib_lawful (ofString "e30=")
    (keyTemplate ++ ofString "abc123") [0x01, 0x01, 0x02, 0x03, 0x05, 0x08, 0x0d, 0x15] (by decide)
  rw [hseal] at hdec
  have hb64 : refLib.base64Decode (ofString "e30=") = some (ofString "\x7b\x7d") := by decide
  have hjson : refLib.jsonParse (ofString "\x7b\x7d") = some (.obj []) := rfl
  exact ⟨hscan, hdec, hb64, hjson,
    (initializeState_stores_empty_token refLib ⟨ofString "old", ofString "old"⟩ ⟨_, none⟩ _
      (ofString "abc123") _ _ _ [] hscan (by decide) (by decide) hdec hb64 hjson (by simp)).2⟩

/-! ## C10: the install data of a page -/

theorem trimSuffix_install (l : Bytes) (hp : hasPrefix l installPrefix = true) :
    ∃ t, trimSuffix l installSuffix = 0x77 :: t := by
  simp only [hasPrefix, List.isPrefixOf_iff_prefix] at hp
  obtain ⟨r, hr⟩ := hp
  have hpre : installPrefix = 0x77 :: ofString "indow.$install = " := by decide
  rw [hpre, List.cons_append] at hr
  unfold trimSuffix
  split
  · have hlen : (ofString "indow.$install = ").length = 17 := by decide
    have hsuf : installSuffix.length = 1 := by decide
    rw [← hr, hsuf]
    simp only [List.length_cons, List.length_append, hlen]
    have : 17 + r.length + 1 - 1 = (17 + r.length - 1) + 1 := by omega
    rw [this, List.take_succ_cons]
    exact ⟨_, rfl⟩
  · exact ⟨_, hr.symm⟩

/-- C10 (what the code does at the failing input). The suffix is trimmed from
the whole line, not from the text left after the prefix, so what is given to
`json.Unmarshal` still starts with `window.$install = `: for every page, at the
first line whose trimmed text starts with the prefix the function returns the
error "Error decoding json", whatever follows the prefix. -/
theorem KhamuInstallDataFromPage_prefix_kept (L : Lib)
    (hw : ∀ t, L.jsonParse (0x77 :: t) = none) (final : Option GoError) (l : Bytes)
    (post : List Bytes) (hl : hasPrefix (trimSpace l) installPrefix = true) :
    ∀ (pre : List Bytes), (∀ x ∈ pre, hasPrefix (trimSpace x) installPrefix = false) →
      KhamuInstallDataFromPage L (pre ++ l :: post) final =
        .err (.wrapped "Error decoding json" (.lib "json.Unmarshal"))
  | [], _ => by
    obtain ⟨t, ht⟩ := trimSuffix_install (trimSpace l) hl
    simp only [List.nil_append, KhamuInstallDataFromPage, hl, ↓reduceIte, ht,
      jsonUnmarshalInstallData, hw]
  | x :: pre, h => by
    have hx := h x (List.mem_cons_self _ _)
    have ih := KhamuInstallDataFromPage_prefix_kept L hw final l post hl pre
      (fun y hy => h y (List.mem_cons_of_mem _ hy))
    simp only [List.cons_append, KhamuInstallDataFromPage, hx, Bool.false_eq_true, ↓reduceIte]
    exact ih

/-- Witness of C10: a page whose second line is `window.$install = {};`.  The
text between the prefix and the suffix, `{}`, is a JSON object, so the decoding
error comes from the prefix that was left in place. -/
theorem KhamuInstallDataFromPage_prefix_kept_witness :
    (∀ t, refLib.jsonParse (0x77 :: t) = none) ∧
    hasPrefix (trimSpace (ofString "  window.$install = \x7b\x7d;\n")) installPrefix = true ∧
    (∀ x ∈ [ofString "<script>\n"], hasPrefix (trimSpace x) installPrefix = false) ∧
    jsonUnmarshalInstallData refLib (ofString "\x7b\x7d") = some [] ∧
    KhamuInstallDataFromPage refLib
      ([ofString "<script>\n"] ++ ofString "  window.$install = \x7b\x7d;\n" ::
        [ofString "</script>\n"]) none =
      .err (.wrapped "Error decoding json" (.lib "json.Unmarshal")) :=
  ⟨Ref.jsonParse_w, by decide, by decide, rfl,
    KhamuInstallDataFromPage_prefix_kept refLib Ref.jsonParse_w none _ _ (by decide) _
      (by decide)⟩

/-! ## C6: a flipped ciphertext bit -/

theorem cbcDecryptBlocks_length (dec : Bytes → Bytes) (hdec : ∀ b, (dec b).length = 16) :
    ∀ (n : Nat) (iv src : Bytes), iv.length = 16 → 16 * n ≤ src.length →
      (cbcDecryptBlocks dec n iv src).length = 16 * n
  | 0, _, _, _, _ => rfl
  | n + 1, iv, src, hiv, hsrc => by
    have ht : (src.take 16).length = 16 := by rw [List.length_take]; omega
    simp only [cbcDecryptBlocks, List.length_append, xorBytes_length, hdec, hiv,
      cbcDecryptBlocks_length dec hdec n (src.take 16) (src.drop 16) ht
        (by rw [List.length_drop]; omega)]
    omega

theorem cbcEncrypt_cbcDecrypt (enc dec : Bytes → Bytes) (hdec : ∀ b, (dec b).length = 16)
    (hinv : ∀ b, b.length = 16 → enc (dec b) = b) :
    ∀ (n : Nat) (iv src : Bytes), iv.length = 16 → 16 * n ≤ src.length →
      cbcEncryptBlocks enc n iv (cbcDecryptBlocks dec n iv src) = src.take (16 * n)
  | 0, _, _, _, _ => by simp [cbcEncryptBlocks]
  | n + 1, iv, src, hiv, hsrc => by
    have ht : (src.take 16).length = 16 := by rw [List.length_take]; omega
    have hx : (xorBytes (dec (src.take 16)) iv).length = 16 := by
      rw [xorBytes_length, hdec, hiv]; rfl
    have ih := cbcEncrypt_cbcDecrypt enc dec hdec hinv n (src.take 16) (src.drop 16) ht
      (by rw [List.length_drop]; omega)
    simp only [cbcEncryptBlocks, cbcDecryptBlocks]
    rw [List.take_append_of_le_length (by omega), List.take_of_length_le (by omega),
      List.drop_append_of_le_length (by omega), List.drop_of_length_le (by omega),
      List.nil_append, xorBytes_cancel _ _ (by rw [hdec, hiv]), hinv _ ht, ih]
    have h16 : 16 * (n + 1) = 16 + 16 * n := by omega
    rw [h16, List.take_add]

theorem flipBit_length : ∀ (c : Bytes) (i k : Nat), (flipBit c i k).length = c.length
  | [], _, _ => rfl
  | _ :: _, 0, _ => rfl
  | _ :: rest, i + 1, k => by simp [flipBit, flipBit_length rest i k]

theorem bit_ne_zero (k : Nat) (hk : k < 8) : (Fin.ofNat (2 ^ k) : Byte) ≠ 0 := by
  have h : ∀ k : Fin 8, (Fin.ofNat (2 ^ k.val) : Byte) ≠ 0 := by decide
  exact h ⟨k, hk⟩

theorem byte_xor_ne (b m : Byte) (hm : m ≠ 0) : b ^^^ m ≠ b := by
  intro h
  apply hm
  apply Fin.ext
  have hv := congrArg Fin.val h
  rw [byte_xor_val] at hv
  have h2 : b.val ^^^ (b.val ^^^ m.val) = b.val ^^^ b.val := congrArg (fun x => b.val ^^^ x) hv
  rw [← Nat.xor_assoc, Nat.xor_self, Nat.zero_xor] at h2
  exact h2

theorem flipBit_ne : ∀ (c : Bytes) (i k : Nat), i < c.length → k < 8 → flipBit c i k ≠ c
  | [], _, _, hi, _ => by simp at hi
  | b :: rest, 0, k, _, hk => by
    intro h
    simp only [flipBit, List.cons.injEq, and_true] at h
    exact byte_xor_ne b _ (bit_ne_zero k hk) h
  | b :: rest, i + 1, k, hi, hk => by
    intro h
    simp only [flipBit, List.cons.injEq, true_and] at h
    exact flipBit_ne rest i k (by simpa using hi) hk h

theorem sealedCiphertext_length (L : Lib) (s p salt : Bytes) :
    (sealedCiphertext L s p salt).length = (pkcs7Pad (jsonMarshalString L s) 16).length := by
  have h := pkcs7Pad_length (jsonMarshalString L s)
  rw [sealedCiphertext, cbcEncryptBlocks_length _ (L.aesEncrypt_size _)]
  omega

theorem decryptBuffer_sealed (L : Lib) (hL : L.Lawful) (s p salt : Bytes) :
    decryptBuffer L (sealedEnvelope L s p salt) p = .ret (pkcs7Pad (jsonMarshalString L s) 16) := by
  rw [sealedEnvelope, decryptBuffer_envelope L hL]
  exact cryptBlocks_decrypt_encrypt L hL _ _ _ (key_length L p salt) (iv_length L p salt)
    (pkcs7Pad_length _)

theorem decryptBuffer_tampered (L : Lib) (hL : L.Lawful) (p s salt : Bytes) (i k : Nat) :
    decryptBuffer L (tamperedEnvelope L s p salt i k) p =
      .ret (cbcDecryptBlocks (L.aesDecrypt ((md5Stream L p salt).take 32))
        ((flipBit (sealedCiphertext L s p salt) i k).length / 16)
        (((md5Stream L p salt).drop 32).take 16) (flipBit (sealedCiphertext L s p salt) i k)) := by
  have hpad := pkcs7Pad_length (jsonMarshalString L s)
  have hlen := sealedCiphertext_length L s p salt
  have hflen := flipBit_length (sealedCiphertext L s p salt) i k
  have hmod : (flipBit (sealedCiphertext L s p salt) i k).length % 16 = 0 := by omega
  rw [tamperedEnvelope, decryptBuffer_envelope L hL]
  simp only [cryptBlocks, iv_length L p salt, ne_eq, not_true_eq_false, ↓reduceIte, hmod]

/-- C6 (as amended). For every password `p`, plaintext `s`, salt and every bit
of the decoded ciphertext of `e = encrypt(s, p)`: `decrypt(e, p)` unpads the
padded plaintext, and `decrypt(e', p)`, where `e'` is `e` with that bit flipped,
unpads a buffer `out` of the same length that differs from the padded
plaintext; `decrypt(e', p)` fails with a padding error when `pkcs7.Unpad`
rejects `out`, fails with a JSON decoding error when `json.Unmarshal` rejects
the unpadded bytes, and returns the string those bytes decode to otherwise. -/
theorem tampered_decrypt (L : Lib) (hL : L.Lawful) (p s salt : Bytes) (i k : Nat)
    (hi : i < (sealedCiphertext L s p salt).length) (hk : k < 8) :
    encrypt L s p (some salt) = .ret (sealedEnvelope L s p salt) ∧
    decryptBuffer L (sealedEnvelope L s p salt) p = .ret (pkcs7Pad (jsonMarshalString L s) 16) ∧
    ∃ out, decryptBuffer L (tamperedEnvelope L s p salt i k) p = .ret out ∧
      out.length = (pkcs7Pad (jsonMarshalString L s) 16).length ∧
      out ≠ pkcs7Pad (jsonMarshalString L s) 16 ∧
      decrypt L (tamperedEnvelope L s p salt i k) p =
        (match L.pkcs7Unpad out with
        | none => .err (.lib "pkcs7.Unpad")
        | some up =>
          match jsonUnmarshalString L up with
          | none => .err (.lib "json.Unmarshal")
          | some outString => .ret outString) := by
  refine ⟨encryptWithSalt_sealed L s p salt, decryptBuffer_sealed L hL s p salt, ?_⟩
  have hpad := pkcs7Pad_length (jsonMarshalString L s)
  have hlen := sealedCiphertext_length L s p salt
  have hflen := flipBit_length (sealedCiphertext L s p salt) i k
  have hiv := iv_length L p salt
  have hkey := key_length L p salt
  have hmul : 16 * ((flipBit (sealedCiphertext L s p salt) i k).length / 16) =
      (flipBit (sealedCiphertext L s p salt) i k).length := by omega
  have hout := cbcDecryptBlocks_length (L.aesDecrypt ((md5Stream L p salt).take 32))
    (L.aesDecrypt_size _) ((flipBit (sealedCiphertext L s p salt) i k).length / 16)
    (((md5Stream L p salt).drop 32).take 16) (flipBit (sealedCiphertext L s p salt) i k) hiv
    (by omega)
  have hback := cbcEncrypt_cbcDecrypt (L.aesEncrypt ((md5Stream L p salt).take 32))
    (L.aesDecrypt ((md5Stream L p salt).take 32)) (L.aesDecrypt_size _)
    (fun b hb => hL.aes_encrypt_decrypt _ b hkey hb)
    ((flipBit (sealedCiphertext L s p salt) i k).length / 16)
    (((md5Stream L p salt).drop 32).take 16) (flipBit (sealedCiphertext L s p salt) i k) hiv
    (by omega)
  rw [hmul, List.take_length] at hback
  have hbuf := decryptBuffer_tampered L hL p s salt i k
  refine ⟨_, hbuf, by rw [hout, hmul, hflen, hlen], ?_, ?_⟩
  · intro heq
    rw [heq, hflen, hlen] at hback
    exact flipBit_ne _ i k hi hk hback.symm
  · rw [decrypt_eq_buffer, hbuf]

theorem byte_xor_flip (a b m : Byte) : (a ^^^ b) ^^^ (b ^^^ m) = a ^^^ m := by
  apply Fin.ext
  simp only [byte_xor_val]
  rw [Nat.xor_assoc, ← Nat.xor_assoc b.val, Nat.xor_self, Nat.zero_xor]

theorem xorBytes_flipBit : ∀ (a b : Bytes) (i k : Nat), a.length = b.length →
    xorBytes (xorBytes a b) (flipBit b i k) = flipBit a i k
  | [], [], _, _, _ => rfl
  | [], _ :: _, _, _, h => by simp at h
  | _ :: _, [], _, _, h => by simp at h
  | x :: a, y :: b, 0, k, h => by
    have hc := xorBytes_cancel a b (by simpa using h)
    simp only [xorBytes] at hc
    simp only [xorBytes, flipBit, List.zipWith_cons_cons, hc]
    rw [byte_xor_flip]
  | x :: a, y :: b, i + 1, k, h => by
    have ih := xorBytes_flipBit a b i k (by simpa using h)
    simp only [xorBytes] at ih
    simp only [xorBytes, flipBit, List.zipWith_cons_cons, byte_xor_cancel, ih]

theorem flipBit_append_left : ∀ (a b : Bytes) (i k : Nat), i < a.length →
    flipBit (a ++ b) i k = flipBit a i k ++ b
  | [], _, _, _, h => by simp at h
  | _ :: _, _, 0, _, _ => rfl
  | x :: a, b, i + 1, k, h => by
    have ih := flipBit_append_left a b i k (by simpa using h)
    simp only [List.cons_append, flipBit, List.append_eq, ih]

theorem flipBit_append_at : ∀ (a : Bytes) (x : Byte) (b : Bytes) (k : Nat),
    flipBit (a ++ x :: b) a.length k = a ++ (x ^^^ Fin.ofNat (2 ^ k)) :: b
  | [], _, _, _ => rfl
  | y :: a, x, b, k => by
    have ih := flipBit_append_at a x b k
    simp only [List.cons_append, List.length_cons, flipBit, List.append_eq, ih]

/-- Flipping a bit in the first of two ciphertext blocks flips the same bit of
the second plaintext block and leaves its other bits as they were. -/
theorem cbc_two_blocks_flip (enc dec : Bytes → Bytes) (henc : ∀ b, (enc b).length = 16)
    (hdec : ∀ b, (dec b).length = 16) (hinv : ∀ b, b.length = 16 → dec (enc b) = b)
    (iv P1 P2 : Bytes) (h1 : P1.length = 16) (h2 : P2.length = 16) (hiv : iv.length = 16)
    (j k : Nat) (hj : j < 16) :
    ∃ G, G.length = 16 ∧
      cbcDecryptBlocks dec 2 iv (flipBit (cbcEncryptBlocks enc 2 iv (P1 ++ P2)) j k) =
        G ++ flipBit P2 j k := by
  have hC1 := henc (xorBytes P1 iv)
  have hC2 := henc (xorBytes P2 (enc (xorBytes P1 iv)))
  have hx2 : (xorBytes P2 (enc (xorBytes P1 iv))).length = 16 := by
    rw [xorBytes_length, h2, hC1]; rfl
  have henc2 : cbcEncryptBlocks enc 2 iv (P1 ++ P2) =
      enc (xorBytes P1 iv) ++ enc (xorBytes P2 (enc (xorBytes P1 iv))) := by
    simp only [cbcEncryptBlocks, List.append_nil]
    rw [List.take_append_of_le_length (by omega), List.take_of_length_le (by omega),
      List.drop_append_of_le_length (by omega), List.drop_of_length_le (by omega),
      List.nil_append, List.take_of_length_le (by omega)]
  have hfl : (flipBit (enc (xorBytes P1 iv)) j k).length = 16 := by
    rw [flipBit_length, hC1]
  rw [henc2, flipBit_append_left _ _ j k (by omega)]
  refine ⟨xorBytes (dec (flipBit (enc (xorBytes P1 iv)) j k)) iv, ?_, ?_⟩
  · rw [xorBytes_length, hdec, hiv]; rfl
  · simp only [cbcDecryptBlocks, List.append_nil]
    rw [List.take_append_of_le_length (by omega), List.take_of_length_le (by omega),
      List.drop_append_of_le_length (by omega), List.drop_of_length_le (by omega),
      List.nil_append, List.take_of_length_le (by omega), hinv _ hx2,
      xorBytes_flipBit _ _ j k (by rw [h2, hC1])]

/-- When the marshalled plaintext ends with its closing quote in the second of
two blocks, flipping bit 0 of the ciphertext byte 16 places before the quote
turns the quote into `#`: the padding is intact, the unpadded text is not JSON
and `decrypt` returns the error of `json.Unmarshal`. -/
theorem tampered_quote (L : Lib) (hL : L.Lawful)
    (hlast : ∀ t, L.jsonParse (t ++ [0x23]) = none) (p s salt body : Bytes)
    (hr : jsonMarshalString L s = body ++ [0x22]) (h16 : 16 ≤ body.length)
    (h30 : body.length ≤ 30) :
    decrypt L (tamperedEnvelope L s p salt (body.length - 16) 0) p =
      .err (.lib "json.Unmarshal") := by
  obtain ⟨n, hn⟩ : ∃ n, n = 31 - body.length := ⟨_, rfl⟩
  have hpad : pkcs7Pad (jsonMarshalString L s) 16 =
      body.take 16 ++ (body.drop 16 ++ 0x22 :: List.replicate n (Fin.ofNat n)) := by
    have hcount : 16 - (body.length + 1) % 16 = n := by omega
    rw [pkcs7Pad, hr]
    simp only [List.length_append, List.length_singleton, hcount]
    conv_lhs => rw [← List.take_append_drop 16 body]
    simp only [List.append_assoc, List.singleton_append]
  have hP1 : (body.take 16).length = 16 := by rw [List.length_take]; omega
  have hP2 : (body.drop 16 ++ 0x22 :: List.replicate n (Fin.ofNat n : Byte)).length = 16 := by
    simp only [List.length_append, List.length_drop, List.length_cons, List.length_replicate]
    omega
  have hlen : (pkcs7Pad (jsonMarshalString L s) 16).length / 16 = 2 := by
    rw [hpad, List.length_append, hP1, hP2]
  have hiv := iv_length L p salt
  have hkey := key_length L p salt
  obtain ⟨G, hG, hflip⟩ := cbc_two_blocks_flip (L.aesEncrypt ((md5Stream L p salt).take 32))
    (L.aesDecrypt ((md5Stream L p salt).take 32)) (L.aesEncrypt_size _) (L.aesDecrypt_size _)
    (fun b hb => hL.aes_decrypt_encrypt _ b hkey hb) (((md5Stream L p salt).drop 32).take 16)
    _ _ hP1 hP2 hiv (body.length - 16) 0 (by omega)
  have hat := flipBit_append_at (body.drop 16) 0x22 (List.replicate n (Fin.ofNat n)) 0
  rw [List.length_drop] at hat
  have hq : ((0x22 : Byte) ^^^ Fin.ofNat (2 ^ 0)) = 0x23 := by decide
  rw [hat, hq] at hflip
  have hct : sealedCiphertext L s p salt =
      cbcEncryptBlocks (L.aesEncrypt ((md5Stream L p salt).take 32)) 2
        (((md5Stream L p salt).drop 32).take 16)
        (body.take 16 ++ (body.drop 16 ++ 0x22 :: List.replicate n (Fin.ofNat n))) := by
    rw [sealedCiphertext, hlen, hpad]
  have hctlen : (flipBit (sealedCiphertext L s p salt) (body.length - 16) 0).length = 32 := by
    rw [flipBit_length, sealedCiphertext_length, hpad, List.length_append, hP1, hP2]
  have hout : G ++ (body.drop 16 ++ 0x23 :: List.replicate n (Fin.ofNat n)) =
      pkcs7Pad ((G ++ body.drop 16) ++ [0x23]) 16 := by
    have hcount : 16 - ((G ++ body.drop 16) ++ [0x23]).length % 16 = n := by
      simp only [List.length_append, List.length_drop, List.length_singleton, hG]
      omega
    rw [pkcs7Pad, hcount]
    simp only [List.append_assoc, List.singleton_append]
  have hdec := decrypt_envelope L hL p salt
    (flipBit (sealedCiphertext L s p salt) (body.length - 16) 0)
    (((md5Stream L p salt).drop 32).take 16)
  rw [tamperedEnvelope, hdec]
  simp only [cryptBlocks, hiv, ne_eq, not_true_eq_false, ↓reduceIte, hctlen, Nat.reduceMod,
    Nat.reduceDiv]
  rw [hct, hflip, hout]
  simp only [hL.unpad_pad, jsonUnmarshalString, hlast]


/-- Counterexample to C6 as stated. Two outcomes the claim excludes.  First, a
tampered envelope can make `decrypt` fail with the error of `json.Unmarshal`,
which is neither a padding error nor a string: for every lawful library whose
JSON reader rejects a text ending in `#`, every password and salt, and every
plaintext whose marshalled text is 17 to 31 bytes long and ends with its
closing quote, flipping bit 0 of the ciphertext byte 16 places before that quote
gives this error; the reference instance meets the conditions with a plaintext
of 16 letters `a` and ciphertext byte 1.  Second, nothing in the format keeps a
tampered envelope from decrypting to the original plaintext: padding bytes can
turn into JSON white space.  In the reference instance, which is lawful,
flipping bit 3 of ciphertext byte 15 of the envelope of `aaaaa` leaves the text
`"aaaaa"`, eight tabs and one padding byte, and `decrypt` returns `aaaaa`. -/
theorem tampered_decoding_error :
    (∀ L : Lib, L.Lawful → (∀ t, L.jsonParse (t ++ [0x23]) = none) →
      ∀ p s salt body : Bytes, jsonMarshalString L s = body ++ [0x22] →
        16 ≤ body.length → body.length ≤ 30 →
        body.length - 16 < (sealedCiphertext L s p salt).length ∧
        decrypt L (tamperedEnvelope L s p salt (body.length - 16) 0) p =
          .err (.lib "json.Unmarshal")) ∧
    (refLib.Lawful ∧ (∀ t, refLib.jsonParse (t ++ [0x23]) = none) ∧
      encrypt refLib (ofString "aaaaaaaaaaaaaaaa") (ofString "Secret Passphrase")
          (some [0x01, 0x01, 0x02, 0x03, 0x05, 0x08, 0x0d, 0x15]) =
        .ret (ofString
          "\x7b\"ct\":\"woGBgYGBgYGBgYGBgYGBgXV1WVlZWVlZWVlZWVlZWVk=\",\"iv\":\"36363636363636363636363636363636\",\"s\":\"0101020305080d15\"\x7d") ∧
      tamperedEnvelope refLib (ofString "aaaaaaaaaaaaaaaa") (ofString "Secret Passphrase")
          [0x01, 0x01, 0x02, 0x03, 0x05, 0x08, 0x0d, 0x15] 1 0 =
        ofString
          "\x7b\"ct\":\"woCBgYGBgYGBgYGBgYGBgXV1WVlZWVlZWVlZWVlZWVk=\",\"iv\":\"36363636363636363636363636363636\",\"s\":\"0101020305080d15\"\x7d" ∧
      decrypt refLib (ofString
          "\x7b\"ct\":\"woCBgYGBgYGBgYGBgYGBgXV1WVlZWVlZWVlZWVlZWVk=\",\"iv\":\"36363636363636363636363636363636\",\"s\":\"0101020305080d15\"\x7d")
          (ofString "Secret Passphrase") = .err (.lib "json.Unmarshal") ∧
      GoError.lib "json.Unmarshal" ≠ GoError.lib "pkcs7.Unpad") ∧
    (encrypt refLib (ofString "aaaaa") (ofString "Secret Passphrase")
          (some [0x01, 0x01, 0x02, 0x03, 0x05, 0x08, 0x0d, 0x15]) =
        .ret (ofString
          "\x7b\"ct\":\"woGBgYGBwunp6enp6enp6Q==\",\"iv\":\"36363636363636363636363636363636\",\"s\":\"0101020305080d15\"\x7d") ∧
      15 < (sealedCiphertext refLib (ofString "aaaaa") (ofString "Secret Passphrase")
        [0x01, 0x01, 0x02, 0x03, 0x05, 0x08, 0x0d, 0x15]).length ∧
      tamperedEnvelope refLib (ofString "aaaaa") (ofString "Secret Passphrase")
          [0x01, 0x01, 0x02, 0x03, 0x05, 0x08, 0x0d, 0x15] 15 3 =
        ofString
          "\x7b\"ct\":\"woGBgYGBwunp6enp6enp4Q==\",\"iv\":\"36363636363636363636363636363636\",\"s\":\"0101020305080d15\"\x7d" ∧
      decryptBuffer refLib (ofString
          "\x7b\"ct\":\"woGBgYGBwunp6enp6enp4Q==\",\"iv\":\"36363636363636363636363636363636\",\"s\":\"0101020305080d15\"\x7d")
          (ofString "Secret Passphrase") =
        .ret (ofString "\"aaaaa\"\t\t\t\t\t\t\t\t\x01") ∧
      decrypt refLib (ofString
          "\x7b\"ct\":\"woGBgYGBwunp6enp6enp4Q==\",\"iv\":\"36363636363636363636363636363636\",\"s\":\"0101020305080d15\"\x7d")
          (ofString "Secret Passphrase") = .ret (ofString "aaaaa")) := by
  have gen : ∀ L : Lib, L.Lawful → (∀ t, L.jsonParse (t ++ [0x23]) = none) →
      ∀ p s salt body : Bytes, jsonMarshalString L s = body ++ [0x22] →
        16 ≤ body.length → body.length ≤ 30 →
        body.length - 16 < (sealedCiphertext L s p salt).length ∧
        decrypt L (tamperedEnvelope L s p salt (body.length - 16) 0) p =
          .err (.lib "json.Unmarshal") := by
    intro L hL hlast p s salt body hr h16 h30
    refine ⟨?_, tampered_quote L hL hlast p s salt body hr h16 h30⟩
    have hlen := sealedCiphertext_length L s p salt
    have hge : (jsonMarshalString L s).length ≤ (pkcs7Pad (jsonMarshalString L s) 16).length := by
      simp [pkcs7Pad]
    have hjd : (jsonMarshalString L s).length = body.length + 1 := by
      rw [hr, List.length_append, List.length_singleton]
    omega
  have hseal : sealedEnvelope refLib (ofString "aaaaaaaaaaaaaaaa") (ofString "Secret Passphrase")
      [0x01, 0x01, 0x02, 0x03, 0x05, 0x08, 0x0d, 0x15] = ofString
        "\x7b\"ct\":\"woGBgYGBgYGBgYGBgYGBgXV1WVlZWVlZWVlZWVlZWVk=\",\"iv\":\"36363636363636363636363636363636\",\"s\":\"0101020305080d15\"\x7d" := by
    decide
  have htam : tamperedEnvelope refLib (ofString "aaaaaaaaaaaaaaaa")
      (ofString "Secret Passphrase") [0x01, 0x01, 0x02, 0x03, 0x05, 0x08, 0x0d, 0x15] 1 0 = ofString
        "\x7b\"ct\":\"woCBgYGBgYGBgYGBgYGBgXV1WVlZWVlZWVlZWVlZWVk=\",\"iv\":\"36363636363636363636363636363636\",\"s\":\"0101020305080d15\"\x7d" := by
    decide
  have hr : jsonMarshalString refLib (ofString "aaaaaaaaaaaaaaaa") =
      ofString "\"aaaaaaaaaaaaaaaa" ++ [0x22] := by decide
  have hd := (gen refLib refLib_lawful Ref.jsonParse_hash (ofString "Secret Passphrase")
    (ofString "aaaaaaaaaaaaaaaa") [0x01, 0x01, 0x02, 0x03, 0x05, 0x08, 0x0d, 0x15]
    (ofString "\"aaaaaaaaaaaaaaaa") hr (by decide) (by decide)).2
  have hidx : (ofString "\"aaaaaaaaaaaaaaaa").length - 16 = 1 := by decide
  rw [hidx, htam] at hd
  have hseal5 : sealedEnvelope refLib (ofString "aaaaa") (ofString "Secret Passphrase")
      [0x01, 0x01, 0x02, 0x03, 0x05, 0x08, 0x0d, 0x15] = ofString
        "\x7b\"ct\":\"woGBgYGBwunp6enp6enp6Q==\",\"iv\":\"36363636363636363636363636363636\",\"s\":\"0101020305080d15\"\x7d" := by
    decide
  have htam5 : tamperedEnvelope refLib (ofString "aaaaa") (ofString "Secret Passphrase")
      [0x01, 0x01, 0x02, 0x03, 0x05, 0x08, 0x0d, 0x15] 15 3 = ofString
        "\x7b\"ct\":\"woGBgYGBwunp6enp6enp4Q==\",\"iv\":\"36363636363636363636363636363636\",\"s\":\"0101020305080d15\"\x7d" := by
    decide
  have hbuf := decryptBuffer_tampered refLib refLib_lawful (ofString "Secret Passphrase")
    (ofString "aaaaa") [0x01, 0x01, 0x02, 0x03, 0x05, 0x08, 0x0d, 0x15] 15 3
  rw [htam5] at hbuf
  have hout : cbcDecryptBlocks
      (refLib.aesDecrypt ((md5Stream refLib (ofString "Secret Passphrase")
        [0x01, 0x01, 0x02, 0x03, 0x05, 0x08, 0x0d, 0x15]).take 32))
      ((flipBit (sealedCiphertext refLib (ofString "aaaaa") (ofString "Secret Passphrase")
        [0x01, 0x01, 0x02, 0x03, 0x05, 0x08, 0x0d, 0x15]) 15 3).length / 16)
      (((md5Stream refLib (ofString "Secret Passphrase")
        [0x01, 0x01, 0x02, 0x03, 0x05, 0x08, 0x0d, 0x15]).drop 32).take 16)
      (flipBit (sealedCiphertext refLib (ofString "aaaaa") (ofString "Secret Passphrase")
        [0x01, 0x01, 0x02, 0x03, 0x05, 0x08, 0x0d, 0x15]) 15 3) =
      ofString "\"aaaaa\"\t\t\t\t\t\t\t\t\x01" := by
    decide
  rw [hout] at hbuf
  refine ⟨gen, ⟨refLib_lawful, Ref.jsonParse_hash, ?_, htam, hd, by decide⟩, ?_, ?_, htam5, hbuf,
    ?_⟩
  · rw [← hseal]
    exact encryptWithSalt_sealed refLib _ _ _
  · rw [← hseal5]
    exact encryptWithSalt_sealed refLib _ _ _
  · rw [sealedCiphertext_length]
    decide
  · rw [decrypt_eq_buffer, hbuf]
    decide

/-- Witness of C6: bit 0 of ciphertext byte 1 in the reference instance. -/
theorem tampered_decrypt_witness :
    refLib.Lawful ∧
    1 < (sealedCiphertext refLib (ofString "aaaaaaaaaaaaaaaa") (ofString "Secret Passphrase")
      [0x01, 0x01, 0x02, 0x03, 0x05, 0x08, 0x0d, 0x15]).length ∧ 0 < 8 ∧
    ∃ out, decryptBuffer refLib (tamperedEnvelope refLib (ofString "aaaaaaaaaaaaaaaa")
          (ofString "Secret Passphrase") [0x01, 0x01, 0x02, 0x03, 0x05, 0x08, 0x0d, 0x15] 1 0)
          (ofString "Secret Passphrase") = .ret out ∧
      out.length = (pkcs7Pad (jsonMarshalString refLib (ofString "aaaaaaaaaaaaaaaa")) 16).length ∧
      out ≠ pkcs7Pad (jsonMarshalString refLib (ofString "aaaaaaaaaaaaaaaa")) 16 ∧
      decrypt refLib (tamperedEnvelope refLib (ofString "aaaaaaaaaaaaaaaa")
          (ofString "Secret Passphrase") [0x01, 0x01, 0x02, 0x03, 0x05, 0x08, 0x0d, 0x15] 1 0)
          (ofString "Secret Passphrase") =
        (match refLib.pkcs7Unpad out with
        | none => .err (.lib "pkcs7.Unpad")
        | some up =>
          match jsonUnmarshalString refLib up with
          | none => .err (.lib "json.Unmarshal")
          | some outString => .ret outString) := by
  have hi : 1 < (sealedCiphertext refLib (ofString "aaaaaaaaaaaaaaaa") (ofString "Secret Passphrase")
      [0x01, 0x01, 0x02, 0x03, 0x05, 0x08, 0x0d, 0x15]).length := by
    rw [sealedCiphertext_length]
    decide
  exact ⟨refLib_lawful, hi, by decide,
    (tampered_decrypt refLib refLib_lawful (ofString "Secret Passphrase")
      (ofString "aaaaaaaaaaaaaaaa") [0x01, 0x01, 0x02, 0x03, 0x05, 0x08, 0x0d, 0x15] 1 0 hi (by decide)).2.2⟩

/-! ## C11: the order state -/

theorem orderKeys_all (e : InstallMap) (v : GoValue) :
    (∀ k ∈ orderKeys, e.index k = some v) ↔
      e.index (ofString "active") = some v ∧ e.index (ofString "pick_up") = some v ∧
      e.index (ofString "delivery") = some v ∧ e.index (ofString "dineln") = some v := by
  simp only [orderKeys, List.mem_cons, List.mem_singleton, List.not_mem_nil, or_false,
    forall_eq_or_imp, forall_eq]

theorem GetOrderState_general (e : InstallMap) :
    (KhamuInstallData.GetOrderState e = .KhamuOrdersActive ↔
      ∀ k ∈ orderKeys, e.index k = some (.int 1)) ∧
    (KhamuInstallData.GetOrderState e = .KhamuOrdersInactive ↔
      ∀ k ∈ orderKeys, e.index k = some (.int 0)) ∧
    (KhamuInstallData.GetOrderState e = .KhamuOrdersInconsistent ↔
      ¬ (∀ k ∈ orderKeys, e.index k = some (.int 1)) ∧
      ¬ (∀ k ∈ orderKeys, e.index k = some (.int 0))) := by
  obtain ⟨a, ha⟩ : ∃ a, e.index (ofString "active") = a := ⟨_, rfl⟩
  obtain ⟨p, hp⟩ : ∃ p, e.index (ofString "pick_up") = p := ⟨_, rfl⟩
  obtain ⟨dl, hdl⟩ : ∃ dl, e.index (ofString "delivery") = dl := ⟨_, rfl⟩
  obtain ⟨di, hdi⟩ : ∃ di, e.index (ofString "dineln") = di := ⟨_, rfl⟩
  simp only [orderKeys_all, KhamuInstallData.GetOrderState, KhamuInstallData.getJsonInt,
    ha, hp, hdl, hdi]
  clear ha hp hdl hdi
  rcases a with _ | (_ | a) <;> try simp
  rcases p with _ | (_ | p) <;> try simp
  rcases dl with _ | (_ | dl) <;> try simp
  rcases di with _ | (_ | di) <;> try simp
  by_cases h0 : a = 0 ∧ p = 0 ∧ dl = 0 ∧ di = 0
  · obtain ⟨rfl, rfl, rfl, rfl⟩ := h0
    simp
  · by_cases h1 : a = 1 ∧ p = 1 ∧ dl = 1 ∧ di = 1
    · obtain ⟨rfl, rfl, rfl, rfl⟩ := h1
      simp
    · simp only [h0, h1, ↓reduceIte, reduceCtorEq, false_iff, true_iff, not_false_eq_true,
        and_self]
      tauto
theorem updateJsonState_made (m : KhamuInstallData) (v : Int) :
    KhamuInstallData.updateJsonState (.made m) v =
      .ret (.made ((ofString "offline_message", .decoded (.str orderMessage)) ::
        (ofString "dineln", .int v) :: (ofString "delivery", .int v) ::
        (ofString "pick_up", .int v) :: (ofString "active", .int v) :: m)) := rfl

theorem updateJsonState_nil (v : Int) :
    KhamuInstallData.updateJsonState .nil v = .panic "assignment to entry in nil map" := rfl

theorem index_updated (m : KhamuInstallData) (v : Int) :
    ∀ k ∈ orderKeys, InstallMap.index
      (.made ((ofString "offline_message", .decoded (.str orderMessage)) ::
        (ofString "dineln", .int v) :: (ofString "delivery", .int v) ::
        (ofString "pick_up", .int v) :: (ofString "active", .int v) :: m)) k = some (.int v) := by
  rw [orderKeys_all]
  exact ⟨rfl, rfl, rfl, rfl⟩

theorem index_decoded (k : Bytes) : ∀ (fields : List (Bytes × Json)) (m : KhamuInstallData),
    (∀ v, List.lookup k m = some v → ∃ j, v = .decoded j) →
    ∀ v, List.lookup k (fields.foldl (fun m kv => (kv.1, GoValue.decoded kv.2) :: m) m) = some v →
      ∃ j, v = .decoded j
  | [], _, hm => hm
  | kv :: fields, m, hm => by
    rw [List.foldl_cons]
    apply index_decoded k fields
    intro v hv
    rw [List.lookup_cons] at hv
    cases hk : k == kv.1 with
    | true =>
      rw [hk] at hv
      exact ⟨kv.2, (Option.some.inj hv).symm⟩
    | false =>
      rw [hk] at hv
      exact hm v hv

/-- What `json.Unmarshal` stores for a JSON number is a `float64`, never an
`int`: the install data of a page, as decoded and before any call of
`updateJsonState`, is always reported as inconsistent. -/
theorem GetOrderState_decoded (L : Lib) (data : Bytes) (m : KhamuInstallData)
    (h : jsonUnmarshalInstallData L data = some m) :
    KhamuInstallData.GetOrderState (.made m) = .KhamuOrdersInconsistent := by
  have hdec : ∀ v, List.lookup (ofString "active") m = some v → ∃ j, v = .decoded j := by
    unfold jsonUnmarshalInstallData at h
    split at h
    · rename_i fields _
      cases h
      exact index_decoded _ fields [] (fun v hv => by simp at hv)
    · cases h
      intro v hv
      simp at hv
    · simp at h
  rw [(GetOrderState_general (.made m)).2.2, orderKeys_all, orderKeys_all]
  constructor
  · intro hall
    obtain ⟨j, hj⟩ := hdec _ hall.1
    cases hj
  · intro hall
    obtain ⟨j, hj⟩ := hdec _ hall.1
    cases hj

/-- C11 (as amended). For every install-data map `d` that is not nil, whatever
it held before, `d.EnableOrdering()` returns and `GetOrderState` then returns
`KhamuOrdersActive`, and `d.DisableOrdering()` returns and `GetOrderState` then
returns `KhamuOrdersInactive`.  In general, for every map (nil included),
`GetOrderState` returns Active exactly when `active`, `pick_up`, `delivery` and
`dineln` all hold the `int` 1, Inactive exactly when all four hold the `int` 0,
and Inconsistent in every other case. -/
theorem GetOrderState_after_switch (d : InstallMap) (hd : d ≠ .nil) :
    (∃ d1, KhamuInstallData.EnableOrdering d = .ret d1 ∧
      KhamuInstallData.GetOrderState d1 = .KhamuOrdersActive) ∧
    (∃ d0, KhamuInstallData.DisableOrdering d = .ret d0 ∧
      KhamuInstallData.GetOrderState d0 = .KhamuOrdersInactive) ∧
    (∀ e : InstallMap,
      (KhamuInstallData.GetOrderState e = .KhamuOrdersActive ↔
        ∀ k ∈ orderKeys, e.index k = some (.int 1)) ∧
      (KhamuInstallData.GetOrderState e = .KhamuOrdersInactive ↔
        ∀ k ∈ orderKeys, e.index k = some (.int 0)) ∧
      (KhamuInstallData.GetOrderState e = .KhamuOrdersInconsistent ↔
        ¬ (∀ k ∈ orderKeys, e.index k = some (.int 1)) ∧
        ¬ (∀ k ∈ orderKeys, e.index k = some (.int 0)))) := by
  cases d with
  | nil => exact absurd rfl hd
  | made m =>
    refine ⟨⟨_, updateJsonState_made m 1, ?_⟩, ⟨_, updateJsonState_made m 0, ?_⟩,
      GetOrderState_general⟩
    · exact (GetOrderState_general _).1.mpr (index_updated m 1)
    · exact (GetOrderState_general _).2.1.mpr (index_updated m 0)

/-- Witness of C11: a map that held a decoded number, a string and the `int` 7
under three of the keys is Active after `EnableOrdering` and Inactive after
`DisableOrdering`. -/
theorem GetOrderState_after_switch_witness :
    InstallMap.made [(ofString "active", .decoded (.num (ofString "1"))),
      (ofString "pick_up", .decoded (.str (ofString "yes"))),
      (ofString "delivery", .int 7)] ≠ .nil ∧
    (∃ d1, KhamuInstallData.EnableOrdering
        (.made [(ofString "active", .decoded (.num (ofString "1"))),
          (ofString "pick_up", .decoded (.str (ofString "yes"))),
          (ofString "delivery", .int 7)]) = .ret d1 ∧
      KhamuInstallData.GetOrderState d1 = .KhamuOrdersActive) ∧
    (∃ d0, KhamuInstallData.DisableOrdering
        (.made [(ofString "active", .decoded (.num (ofString "1"))),
          (ofString "pick_up", .decoded (.str (ofString "yes"))),
          (ofString "delivery", .int 7)]) = .ret d0 ∧
      KhamuInstallData.GetOrderState d0 = .KhamuOrdersInactive) :=
  ⟨fun h => InstallMap.noConfusion h,
    (GetOrderState_after_switch _ (fun h => InstallMap.noConfusion h)).1,
    (GetOrderState_after_switch _ (fun h => InstallMap.noConfusion h)).2.1⟩

/-- Counterexample to C11 as stated. The nil map is an install-data map, and
both `EnableOrdering` and `DisableOrdering` panic on it at their first
assignment, so there is no state after the call for `GetOrderState` to report. -/
theorem EnableOrdering_nil_panics :
    KhamuInstallData.EnableOrdering .nil = .panic "assignment to entry in nil map" ∧
    KhamuInstallData.DisableOrdering .nil = .panic "assignment to entry in nil map" ∧
    (¬ ∃ d1, KhamuInstallData.EnableOrdering .nil = .ret d1 ∧
      KhamuInstallData.GetOrderState d1 = .KhamuOrdersActive) ∧
    (¬ ∃ d0, KhamuInstallData.DisableOrdering .nil = .ret d0 ∧
      KhamuInstallData.GetOrderState d0 = .KhamuOrdersInactive) ∧
    KhamuInstallData.GetOrderState .nil = .KhamuOrdersInconsistent := by
  refine ⟨updateJsonState_nil 1, updateJsonState_nil 0, ?_, ?_, rfl⟩
  · rintro ⟨d1, h, _⟩
    rw [KhamuInstallData.EnableOrdering, updateJsonState_nil] at h
    cases h
  · rintro ⟨d0, h, _⟩
    rw [KhamuInstallData.DisableOrdering, updateJsonState_nil] at h
    cases h

end Khamu
